import Mathlib

/-!
Verification of the directory-scanning "model locator" logic of the two GUI
plugins in this repository: the `ResourceSpawner` plugin
(`src/gui/plugins/resource_spawner/ResourceSpawner.cc`) and the `InsertModel`
plugin (unnamed source file).

The filesystem is modelled as a pair of partial maps from path strings to file
contents and to directory listings; `ignition::common` path queries
(`isFile`, `isDirectory`, `exists`, `DirIter`) become lookups in those maps.
C++ `std::string::rfind`/`substr` are modelled on the character list of the
string, with `std::string::npos` arithmetic (`npos + 1` wrapping to `0` in the
64-bit unsigned `size_type`) made explicit.  External collaborators
(`sdf::getModelFilePath`, the tinyxml2 parser) are abstracted as function
parameters, as the specification directs.
-/

set_option maxHeartbeats 1000000

/-- A discovered model record.  Modelled from the spec: the `LocalModel`
struct is declared in the plugin headers, which are not part of the given
sources; per spec §3 it holds four string fields (`name`, `configPath`,
`sdfPath`, `thumbnailPath`), each default-initialised to the empty string
(C++ `std::string` default construction). -/
structure LocalModel where
  name : String
  configPath : String
  sdfPath : String
  thumbnailPath : String
deriving DecidableEq, Repr

/-- The filesystem as seen through `ignition::common` path queries:
`files` maps a path to the contents of the regular file at that path (if any),
`dirs` maps a path to the ordered listing of entry names of the directory at
that path (if any).  Functions allow infinite structures, which is how a
self-referential (symlink-cycle) directory appears to path-based traversal. -/
structure FileSys where
  files : String → Option String
  dirs : String → Option (List String)

/-- Models `ignition::common::isFile`. -/
def FileSys.isFile (fs : FileSys) (p : String) : Bool :=
  (fs.files p).isSome

/-- Models `ignition::common::isDirectory`. -/
def FileSys.isDir (fs : FileSys) (p : String) : Bool :=
  (fs.dirs p).isSome

/-- Models `ignition::common::exists`: the path names a file or a directory. -/
def FileSys.existsPath (fs : FileSys) (p : String) : Bool :=
  fs.isFile p || fs.isDir p

/-- Models `ignition::common::DirIter` over `p`: yields the full path of each entry
of the directory, in enumeration order (empty when `p` is not a directory). -/
def FileSys.ls (fs : FileSys) (p : String) : List String :=
  ((fs.dirs p).getD []).map (fun n => p ++ "/" ++ n)

/-- Index of the last occurrence of `c`, on the character list of a string
(`std::string::rfind` returns `npos` when absent; here `none`). -/
def lastIdxOf (c : Char) : List Char → Option Nat
  | [] => none
  | x :: xs =>
    match lastIdxOf c xs with
    | some i => some (i + 1)
    | none => if x = c then some 0 else none

/-- Models `std::string::rfind(c)` with `none` standing for `npos`. -/
def cppRfind (c : Char) (s : String) : Option Nat :=
  lastIdxOf c s.data

/-- Models `std::string::npos` for a 64-bit `size_type`. -/
def cppNpos : Nat := 2 ^ 64 - 1

/-- The index `idx + 1` computed by both plugins after `rfind`: when `rfind`
found an occurrence at `i` (so `i < length < 2 ^ 64` for any real string and
no wrap occurs), the value is `i + 1`; when it returned `npos`, unsigned
arithmetic wraps `npos + 1` around to `0`. -/
def idxAfter : Option Nat → Nat
  | some i => i + 1
  | none => (cppNpos + 1) % 2 ^ 64

/-- Models `s.substr(n)` (clipped at the end of the string). -/
def cppSubstrFrom (s : String) (n : Nat) : String :=
  String.mk (s.data.drop n)

/-- Models `s.substr(0, count)`: `count = npos` (here `none`) takes the whole
string, since `substr` clips the count at the string length. -/
def cppSubstrTo (s : String) : Option Nat → String
  | some i => String.mk (s.data.take i)
  | none => String.mk (s.data.take cppNpos)

/-- The file-name component computed by both plugins:
`path.substr(path.rfind("/") + 1)`.  This also models
`ignition::common::basename` as used by `ResourceSpawner` (its argument there
always has a slash-free final component).  A path with no `/` yields the whole
path (`npos + 1` wraps to `0`). -/
def cppBasename (p : String) : String :=
  cppSubstrFrom p (idxAfter (cppRfind '/' p))

/-- The directory part computed by `InsertModel` (`path.substr(0, index)`),
also modelling `ignition::common::parentPath` as used by `ResourceSpawner`. -/
def cppParentPath (p : String) : String :=
  cppSubstrTo p (cppRfind '/' p)

/-- The extension computed by both thumbnail scans:
`fileName.substr(fileName.rfind(".") + 1)`.  A name with no dot yields the
whole name, because `npos + 1` wraps to `0`. -/
def extAfterDot (s : String) : String :=
  cppSubstrFrom s (idxAfter (cppRfind '.' s))

/-- Models `ignition::common::changeToUnixPath`: backslashes become slashes. -/
def changeToUnixPath (s : String) : String :=
  String.mk (s.data.map (fun c => if c = '\\' then '/' else c))

/-- A minimal model of a parsed tinyxml2 element: tag, child elements and
text content.  The descriptor format is consumed as an opaque nested-element
document per spec §6. -/
inductive XmlElem where
  | mk (tag : String) (children : List XmlElem) (text : String)

/-- Tag of an element. -/
def XmlElem.tag : XmlElem → String
  | .mk t _ _ => t

/-- Child elements of an element. -/
def XmlElem.children : XmlElem → List XmlElem
  | .mk _ cs _ => cs

/-- Text content (`GetText()`) of an element. -/
def XmlElem.text : XmlElem → String
  | .mk _ _ tx => tx

/-- A parsed document is its list of top-level elements. -/
def XmlDoc := List XmlElem

/-- Models `FirstChildElement(tag)`: first element with the given tag. -/
def xmlFirstChild (tag : String) : List XmlElem → Option XmlElem
  | [] => none
  | e :: rest => if e.tag = tag then some e else xmlFirstChild tag rest

/-- The `model.name` assignment of `ResourceSpawner::LoadLocalModel`:
`doc.FirstChildElement("model")`, then `FirstChildElement("name")`, then
`GetText()`; the name stays empty on a failed load (`docOpt = none`, tinyxml2
leaves the document empty), a missing `model` element or a missing `name`
child. -/
def extractName (docOpt : Option XmlDoc) : String :=
  match docOpt with
  | none => ""
  | some doc =>
    match xmlFirstChild "model" doc with
    | none => ""
    | some modelXml =>
      match xmlFirstChild "name" modelXml.children with
      | none => ""
      | some modelName => modelName.text

/-- The thumbnail loop shared by both plugins: iterate the directory entries
in order; the first entry that is a regular file whose extension satisfies
`extOk` is taken and the loop breaks; otherwise the thumbnail stays empty. -/
def firstThumb (fs : FileSys) (extOk : String → Bool) : List String → String
  | [] => ""
  | cur :: rest =>
    if fs.isFile cur then
      if extOk (extAfterDot (cppBasename cur)) then cur
      else firstThumb fs extOk rest
    else firstThumb fs extOk rest

namespace ResourceSpawner

/-- The extension test of `ResourceSpawner::LoadLocalModel`:
`png`, `jpg`, `jpeg` or `svg`, case-sensitively. -/
def thumbExtOk (ext : String) : Bool :=
  ext = "png" || ext = "jpg" || ext = "jpeg" || ext = "svg"

/-- Translation of `ResourceSpawner::LoadLocalModel`.  Here `res` abstracts
`sdf::getModelFilePath`, `parse` abstracts the tinyxml2 parser applied to the
file contents.  Returns the record handed to `GridModel::AddLocalModel`, or
`none` when the early `return` is taken.  The record is built positionally as
`⟨name, configPath, sdfPath, thumbnailPath⟩`; the source never assigns
`configPath`, so it keeps its default empty value. -/
def LoadLocalModel (fs : FileSys) (res : String → String)
    (parse : String → Option XmlDoc) (path : String) : Option LocalModel :=
  let fileName := cppBasename path
  if !fs.isFile path || fileName ≠ "model.config" then none
  else
    let modelPath := cppParentPath path
    let thumbnailPath := modelPath ++ "/" ++ "thumbnails"
    let configFileName := modelPath ++ "/" ++ "model.config"
    let name := extractName ((fs.files configFileName).bind parse)
    let sdfPath := res modelPath
    let thumb :=
      if fs.existsPath thumbnailPath then firstThumb fs thumbExtOk (fs.ls thumbnailPath)
      else ""
    some ⟨name, "", sdfPath, thumb⟩

/-- Translation of `ResourceSpawner::FindLocalModels`: one level deep; a directory entry is
probed for an immediate `model.config`, a file entry is probed directly; the
records appended to the grid model are collected in iteration order. -/
def FindLocalModels (fs : FileSys) (res : String → String)
    (parse : String → Option XmlDoc) (path : String) : List LocalModel :=
  if fs.isDir path then
    (fs.ls path).flatMap (fun cur =>
      if fs.isDir cur then
        (LoadLocalModel fs res parse (cur ++ "/" ++ "model.config")).toList
      else
        (LoadLocalModel fs res parse cur).toList)
  else
    (LoadLocalModel fs res parse path).toList

/-- Translation of `ResourceSpawner::LoadConfig` after the transport request: `ok` stands
for `executed && result`; on failure or an empty path list nothing is added
and nothing is scanned.  Otherwise every received path is added to the path
model, but only `res.data(0)` is scanned.  Returns the final path model and
grid model contents. -/
def LoadConfig (fs : FileSys) (res : String → String)
    (parse : String → Option XmlDoc) (ok : Bool) (paths : List String) :
    List String × List LocalModel :=
  if !ok || paths.length < 1 then ([], [])
  else (paths, FindLocalModels fs res parse (paths.headI))

/-- The `getline` loop of `ResourceSpawner::OnResourceSpawn` (and of the
`box` branch of `InsertModel::OnMode`), on the character list of the file
contents: each line read is appended followed by `"\n"`; reading an
unreadable file yields the empty string. -/
def getlineJoin : List Char → List Char
  | [] => []
  | c :: rest =>
    if c = '\n' then '\n' :: getlineJoin rest
    else c :: (match rest with
      | [] => ['\n']
      | _ :: _ => getlineJoin rest)

/-- Whole-file read through the `getline` loop; a path that cannot be opened
produces the empty string. -/
def readWholeFile (fs : FileSys) (p : String) : String :=
  match fs.files p with
  | none => ""
  | some c => String.mk (getlineJoin c.data)

/-- The `SpawnPreviewModel` event payload sent to the main window. -/
structure SpawnPreviewModel where
  sdfString : String
deriving DecidableEq, Repr

/-- Translation of `ResourceSpawner::OnResourceSpawn`: read the file at the given path and
unconditionally dispatch a preview event carrying the accumulated text. -/
def OnResourceSpawn (fs : FileSys) (sdfPath : String) : SpawnPreviewModel :=
  ⟨readWholeFile fs sdfPath⟩

end ResourceSpawner

namespace InsertModel

/-- The extension test of `InsertModel::FindLocalModels`:
`png`, `jpg` or `jpeg`, case-sensitively (no `svg`). -/
def thumbExtOk (ext : String) : Bool :=
  ext = "png" || ext = "jpg" || ext = "jpeg"

/-- The `isFile` branch of `InsertModel::FindLocalModels`: the path is known
to name a regular file; if its final component is `model.config` a record is
pushed (configPath set to the unix-converted path, name never assigned and
hence empty), otherwise nothing happens. -/
def fileBranch (fs : FileSys) (res : String → String) (path0 : String) :
    List LocalModel :=
  let path := changeToUnixPath path0
  let index := cppRfind '/' path
  let fileName := cppSubstrFrom path (idxAfter index)
  if fileName = "model.config" then
    let modelPath := cppSubstrTo path index
    let thumbnailPath := modelPath ++ "/thumbnails"
    let sdfPath := res modelPath
    let thumb :=
      if fs.existsPath thumbnailPath then firstThumb fs thumbExtOk (fs.ls thumbnailPath)
      else ""
    [⟨"", path, sdfPath, thumb⟩]
  else []

/-- Translation of `InsertModel::FindLocalModels` (single-path variant): recurse into every
entry of a directory, handle a file through `fileBranch`, ignore anything
else.  The unbounded C++ recursion is modelled with explicit fuel: `none`
means the computation did not finish within `fuel` nested calls, so
divergence of the source is `∀ fuel, findFuel fs res fuel p = none`. -/
def findFuel (fs : FileSys) (res : String → String) :
    Nat → String → Option (List LocalModel)
  | 0, _ => none
  | fuel + 1, path =>
    if fs.isDir path then
      (fs.ls path).foldl
        (fun acc cur => acc.bind fun l => (findFuel fs res fuel cur).map (fun r => l ++ r))
        (some [])
    else if fs.isFile path then
      some (fileBranch fs res path)
    else
      some []

/-- Translation of `InsertModel::FindLocalModels` (vector variant): scan every path of the
list in order, accumulating the records. -/
def findVec (fs : FileSys) (res : String → String) (fuel : Nat)
    (paths : List String) : Option (List LocalModel) :=
  paths.foldl
    (fun acc p => acc.bind fun l => (findFuel fs res fuel p).map (fun r => l ++ r))
    (some [])

/-- Models `::tolower` on an ASCII character. -/
def asciiToLower (c : Char) : Char :=
  if 'A' ≤ c ∧ c ≤ 'Z' then Char.ofNat (c.toNat + 32) else c

/-- The `std::transform(..., ::tolower)` applied by `InsertModel::OnMode`. -/
def asciiLower (s : String) : String :=
  String.mk (s.data.map asciiToLower)

/-- Outcome of `InsertModel::OnMode`: either the unchecked
`localModels[0]` access is out of bounds (undefined behaviour in the source),
or the handler returns without an event (unknown mode), or a preview event
with the given payload is dispatched. -/
inductive OnModeResult where
  | outOfBounds
  | noEvent
  | spawned (payload : String)
deriving DecidableEq, Repr

/-- Translation of `InsertModel::OnMode`: lower-case the mode string; for `box`, read the
file at `localModels[0].sdfPath` — the index-0 access has no bounds check, so
an empty model list makes it out of bounds; for `sphere` and `cylinder` the
branch bodies are empty and the lower-cased string itself is dispatched; any
other mode logs a warning and returns without dispatching. -/
def OnMode (fs : FileSys) (models : List LocalModel) (mode : String) :
    OnModeResult :=
  let m := asciiLower mode
  if m = "box" then
    match models.get? 0 with
    | none => .outOfBounds
    | some md => .spawned (ResourceSpawner.readWholeFile fs md.sdfPath)
  else if m = "sphere" then .spawned m
  else if m = "cylinder" then .spawned m
  else .noEvent

end InsertModel

/-! ## Finite directory trees

A finite acyclic directory structure, used to quantify over "directory trees"
in the claims.  `FSTree`/`FSForest` are mutually inductive so that all
functions below are plain structural recursions. -/

mutual

inductive FSTree where
  | file (name : String) (content : String)
  | dir (name : String) (children : FSForest)

inductive FSForest where
  | nil
  | cons (head : FSTree) (tail : FSForest)

end

/-- Entry name of a node. -/
def FSTree.name : FSTree → String
  | .file n _ => n
  | .dir n _ => n

/-- The forest as a list of trees. -/
def FSForest.toList : FSForest → List FSTree
  | .nil => []
  | .cons c rest => c :: rest.toList

/-- Names of the entries of a forest, in order. -/
def FSForest.namesF : FSForest → List String
  | .nil => []
  | .cons c rest => c.name :: rest.namesF

/-- First entry of a forest with the given name. -/
def FSForest.childNamed : FSForest → String → Option FSTree
  | .nil, _ => none
  | .cons c rest, n => if c.name = n then some c else rest.childNamed n

/-- An entry name a real filesystem can produce: nonempty, and containing no
path separator of either kind. -/
def goodName (n : String) : Bool :=
  !(n = "") && !(n.data.contains '/') && !(n.data.contains '\\')

/-- No duplicate names. -/
def nodupStr : List String → Bool
  | [] => true
  | x :: xs => !(xs.contains x) && nodupStr xs

mutual

/-- Well-formedness of a tree: every entry name is a real name and sibling
names are distinct. -/
def FSTree.wfb : FSTree → Bool
  | .file n _ => goodName n
  | .dir n cs => goodName n && nodupStr cs.namesF && cs.wfbF

/-- Well-formedness of a forest. -/
def FSForest.wfbF : FSForest → Bool
  | .nil => true
  | .cons c rest => c.wfb && rest.wfbF

end

mutual

/-- Height of a tree (files have height 0). -/
def FSTree.height : FSTree → Nat
  | .file _ _ => 0
  | .dir _ cs => cs.heightF + 1

/-- Maximum height over a forest. -/
def FSForest.heightF : FSForest → Nat
  | .nil => 0
  | .cons c rest => max c.height rest.heightF

end

mutual

/-- Number of files named `model.config` anywhere in a tree. -/
def FSTree.configCount : FSTree → Nat
  | .file n _ => if n = "model.config" then 1 else 0
  | .dir _ cs => cs.configCountF

/-- Number of files named `model.config` anywhere in a forest. -/
def FSForest.configCountF : FSForest → Nat
  | .nil => 0
  | .cons c rest => c.configCount + rest.configCountF

end

/-- The full path of the node reached from `base` by the given relative
components: each component adds `/name`. -/
def pathAppend (base : String) : List String → String
  | [] => base
  | n :: rest => pathAppend (base ++ "/" ++ n) rest

/-- Descend from a tree along a list of entry names. -/
def FSTree.get : List String → FSTree → Option FSTree
  | [], t => some t
  | n :: rest, t =>
    match t with
    | .file _ _ => none
    | .dir _ cs =>
      match cs.childNamed n with
      | some c => FSTree.get rest c
      | none => none

mutual

/-- Resolve the path string `q` against the tree `t` mounted at path `base`:
the node whose full path equals `q`, if any. -/
def FSTree.find (t : FSTree) (base q : String) : Option FSTree :=
  if q = base then some t
  else
    match t with
    | .file _ _ => none
    | .dir _ cs => cs.findF base q

/-- Resolve `q` against the children of a directory at path `base`. -/
def FSForest.findF (f : FSForest) (base q : String) : Option FSTree :=
  match f with
  | .nil => none
  | .cons c rest =>
    match c.find (base ++ "/" ++ c.name) q with
    | some r => some r
    | none => rest.findF base q

end

/-- The `FileSys` view of a tree mounted at path `root`: the OS path queries
answered by resolving path strings against the tree. -/
def mount (root : String) (t : FSTree) : FileSys where
  files := fun q =>
    match t.find root q with
    | some (.file _ content) => some content
    | _ => none
  dirs := fun q =>
    match t.find root q with
    | some (.dir _ cs) => some cs.namesF
    | _ => none

/-- What the thumbnail loop of `InsertModel` produces on the children of a
`thumbnails` directory mounted at path `tp`: the full path of the first file
child whose extension matches, or the empty string. -/
def InsertModel.treeThumbF (tp : String) : FSForest → String
  | .nil => ""
  | .cons (.file n _) rest =>
    if InsertModel.thumbExtOk (extAfterDot n) then tp ++ "/" ++ n
    else InsertModel.treeThumbF tp rest
  | .cons (.dir _ _) rest => InsertModel.treeThumbF tp rest

/-- The record `InsertModel` pushes for a `model.config` file that is a child
of the directory at path `p` whose children form the forest `all`. -/
def InsertModel.record (res : String → String) (p : String) (all : FSForest) :
    LocalModel :=
  ⟨"", p ++ "/" ++ "model.config", res p,
    match all.childNamed "thumbnails" with
    | some (.dir _ ts) => InsertModel.treeThumbF (p ++ "/" ++ "thumbnails") ts
    | _ => ""⟩

mutual

/-- Records produced while scanning a child of the directory at path `p`
whose full child forest is `all`: a file child named `model.config` yields
one record, a directory child is scanned recursively, anything else yields
nothing. -/
def InsertModel.pieceT (res : String → String) (p : String) (all : FSForest) :
    FSTree → List LocalModel
  | .file n _ => if n = "model.config" then [InsertModel.record res p all] else []
  | .dir n gs => InsertModel.piecesF res (p ++ "/" ++ n) gs gs

/-- Records produced while scanning the given suffix of the children of the
directory at path `p` whose full child forest is `all`. -/
def InsertModel.piecesF (res : String → String) (p : String) (all : FSForest) :
    FSForest → List LocalModel
  | .nil => []
  | .cons c rest =>
    InsertModel.pieceT res p all c ++ InsertModel.piecesF res p all rest

end

/-- All records produced by scanning the directory with children `cs` mounted
at path `p`. -/
def InsertModel.dirResult (res : String → String) (p : String)
    (cs : FSForest) : List LocalModel :=
  InsertModel.piecesF res p cs cs

/-- A string free of backslashes, so that `changeToUnixPath` leaves it
alone. -/
def noBackslash (s : String) : Bool :=
  !(s.data.contains '\\')

/-- The infinite directory structure that a self-referential (symlink-cycle)
directory presents to path-based traversal: every path is a directory with a
single subdirectory entry `d`. -/
def cyclicFS : FileSys where
  files := fun _ => none
  dirs := fun _ => some ["d"]


/-- The thumbnail choice as the specification words it: the first entry, in
enumeration order, that is a regular file whose extension passes `extOk`; the
empty string when no entry matches.  Stated with `List.find?` to compare
against the loop `firstThumb` translated from the source. -/
def specFirstThumb (fs : FileSys) (extOk : String → Bool)
    (entries : List String) : String :=
  match entries.find? (fun e => fs.isFile e && extOk (extAfterDot (cppBasename e))) with
  | some e => e
  | none => ""

/-- A resolver standing in for `sdf::getModelFilePath` in concrete tests. -/
def resW : String → String := fun p => p ++ "/model.sdf"

/-- A parser standing in for tinyxml2 that fails on every input (concrete
tests of the failed-parse paths). -/
def parseNone : String → Option XmlDoc := fun _ => none

/-- An empty filesystem. -/
def emptyFS : FileSys where
  files := fun _ => none
  dirs := fun _ => none

/-- Concrete filesystem: one `model.config` file at depth 1 under `/r`. -/
def cexFS1 : FileSys where
  files := fun q => if q = "/r/model.config" then some "<model/>" else none
  dirs := fun q => if q = "/r" then some ["model.config"] else none

/-- Concrete filesystem with two roots: `/r1` is empty, `/r2` holds a model
directory `m` with a `model.config`. -/
def cexFS2 : FileSys where
  files := fun q => if q = "/r2/m/model.config" then some "x" else none
  dirs := fun q =>
    if q = "/r1" then some []
    else if q = "/r2" then some ["m"]
    else if q = "/r2/m" then some ["model.config"]
    else none

/-- Concrete filesystem: a lone unparsable `model.config` under `/m`. -/
def fs5W : FileSys where
  files := fun q => if q = "/m/model.config" then some "garbage" else none
  dirs := fun q => if q = "/m" then some ["model.config"] else none

/-- Concrete filesystem: a model at `/m` with a `thumbnails` directory
holding `a.txt` then `b.png` (in enumeration order). -/
def fs4W : FileSys where
  files := fun q =>
    if q = "/m/model.config" then some "<model/>"
    else if q = "/m/thumbnails/a.txt" then some "t"
    else if q = "/m/thumbnails/b.png" then some "i"
    else none
  dirs := fun q =>
    if q = "/m" then some ["model.config", "thumbnails"]
    else if q = "/m/thumbnails" then some ["a.txt", "b.png"]
    else none

/-- The record `ResourceSpawner::LoadLocalModel` produces on `fs4W`. -/
def m4W : LocalModel := ⟨"", "", "/m/model.sdf", "/m/thumbnails/b.png"⟩

/-- Concrete filesystem: a `thumbnails`-like directory `/t` holding a file
named exactly `png`, with no dot in its name. -/
def fs9W : FileSys where
  files := fun q => if q = "/t/png" then some "img" else none
  dirs := fun q => if q = "/t" then some ["png"] else none

/-- Witness forest: a single `model.config` file. -/
def w1cs : FSForest := .cons (.file "model.config" "x") .nil

/-! ## String-level lemmas -/

theorem strMk_data (s : String) : String.mk s.data = s := by
  cases s; rfl

theorem strData_append (a b : String) : (a ++ b).data = a.data ++ b.data := by
  cases a; cases b; rfl

theorem lastIdxOf_eq_none {c : Char} {l : List Char} (h : c ∉ l) :
    lastIdxOf c l = none := by
  induction l with
  | nil => rfl
  | cons x xs ih =>
    have hx : x ≠ c := fun hxc => h (hxc ▸ List.mem_cons_self x xs)
    have hxs : c ∉ xs := fun hm => h (List.mem_cons_of_mem x hm)
    simp [lastIdxOf, ih hxs, hx]

theorem lastIdxOf_append_sep {n : List Char} (p : List Char) (h : '/' ∉ n) :
    lastIdxOf '/' (p ++ '/' :: n) = some p.length := by
  induction p with
  | nil => simp [lastIdxOf, lastIdxOf_eq_none h]
  | cons x xs ih => simp [lastIdxOf, ih]

theorem cppRfind_append_sep {p n : String} (h : '/' ∉ n.data) :
    cppRfind '/' (p ++ "/" ++ n) = some p.data.length := by
  unfold cppRfind
  rw [show (p ++ "/" ++ n).data = p.data ++ '/' :: n.data by simp [strData_append]]
  exact lastIdxOf_append_sep p.data h

theorem cppBasename_append {p n : String} (h : '/' ∉ n.data) :
    cppBasename (p ++ "/" ++ n) = n := by
  unfold cppBasename
  rw [cppRfind_append_sep h]
  unfold cppSubstrFrom
  rw [show idxAfter (some p.data.length) = p.data.length + 1 from rfl]
  rw [show (p ++ "/" ++ n).data = (p.data ++ ['/']) ++ n.data by simp [strData_append]]
  rw [show p.data.length + 1 = (p.data ++ ['/']).length by simp]
  rw [List.drop_left, strMk_data]

theorem cppParentPath_append {p n : String} (h : '/' ∉ n.data) :
    cppParentPath (p ++ "/" ++ n) = p := by
  unfold cppParentPath
  rw [cppRfind_append_sep h]
  unfold cppSubstrTo
  rw [show (p ++ "/" ++ n).data = p.data ++ '/' :: n.data by simp [strData_append]]
  show String.mk ((p.data ++ '/' :: n.data).take p.data.length) = p
  have : (p.data ++ '/' :: n.data).take p.data.length = p.data := by
    rw [List.take_append_of_le_length (Nat.le_refl _)]
    simp
  rw [this, strMk_data]

theorem idxAfter_none : idxAfter none = 0 := by
  unfold idxAfter cppNpos
  norm_num

theorem extAfterDot_no_dot {s : String} (h : '.' ∉ s.data) :
    extAfterDot s = s := by
  unfold extAfterDot cppRfind
  rw [lastIdxOf_eq_none h, idxAfter_none]
  unfold cppSubstrFrom
  rw [List.drop_zero, strMk_data]

theorem changeToUnixPath_id {s : String} (h : noBackslash s = true) :
    changeToUnixPath s = s := by
  unfold changeToUnixPath
  have hmem : '\\' ∉ s.data := by
    unfold noBackslash at h
    simpa using h
  have : s.data.map (fun c => if c = '\\' then '/' else c) = s.data.map id := by
    apply List.map_congr_left
    intro c hc
    have : c ≠ '\\' := fun hcc => hmem (hcc ▸ hc)
    simp [this]
  rw [this, List.map_id, strMk_data]

/-! ## Path lemmas -/

theorem pathAppend_append (p : String) (xs ys : List String) :
    pathAppend p (xs ++ ys) = pathAppend (pathAppend p xs) ys := by
  induction xs generalizing p with
  | nil => rfl
  | cons n rest ih => simp [pathAppend, ih]

/-- The characters a component list contributes after the mount point. -/
def flatComps (comps : List String) : List Char :=
  comps.flatMap (fun n => '/' :: n.data)

theorem flatComps_cons (n : String) (rest : List String) :
    flatComps (n :: rest) = '/' :: (n.data ++ flatComps rest) := by
  simp [flatComps]

theorem pathAppend_data (p : String) (comps : List String) :
    (pathAppend p comps).data = p.data ++ flatComps comps := by
  induction comps generalizing p with
  | nil => simp [pathAppend, flatComps]
  | cons n rest ih =>
    rw [pathAppend, ih, flatComps_cons]
    simp [strData_append]

theorem goodName_spec {n : String} (h : goodName n = true) :
    n ≠ "" ∧ '/' ∉ n.data ∧ '\\' ∉ n.data := by
  unfold goodName at h
  simp at h
  exact ⟨h.1.1, h.1.2, h.2⟩

theorem pathAppend_ne (p : String) (c : String) (rest : List String) :
    pathAppend p (c :: rest) ≠ p := by
  intro h
  have hd := congrArg String.data h
  rw [pathAppend_data, flatComps_cons] at hd
  have hlen := congrArg List.length hd
  simp at hlen

theorem sep_chunk_inj :
    ∀ (la lb fa fb : List Char), '/' ∉ la → '/' ∉ lb →
      (fa = [] ∨ fa.head? = some '/') → (fb = [] ∨ fb.head? = some '/') →
      la ++ fa = lb ++ fb → la = lb ∧ fa = fb := by
  intro la
  induction la with
  | nil =>
    intro lb fa fb _ hlb hfa _ h
    cases lb with
    | nil => exact ⟨rfl, h⟩
    | cons y lbs =>
      exfalso
      simp only [List.nil_append] at h
      subst h
      rcases hfa with h1 | h1
      · simp at h1
      · simp only [List.head?] at h1
        have hy : y = '/' := by injection h1
        exact hlb (hy ▸ List.mem_cons_self y lbs)
  | cons x las ih =>
    intro lb fa fb hla hlb hfa hfb h
    cases lb with
    | nil =>
      exfalso
      simp only [List.nil_append] at h
      rcases hfb with h1 | h1
      · subst h1; simp at h
      · rw [← h] at h1
        simp only [List.head?] at h1
        have hy : x = '/' := by injection h1
        exact hla (hy ▸ List.mem_cons_self x las)
    | cons y lbs =>
      simp only [List.cons_append, List.cons.injEq] at h
      obtain ⟨hxy, h2⟩ := h
      have hla2 : '/' ∉ las := fun hm => hla (List.mem_cons_of_mem x hm)
      have hlb2 : '/' ∉ lbs := fun hm => hlb (List.mem_cons_of_mem y hm)
      obtain ⟨e1, e2⟩ := ih lbs fa fb hla2 hlb2 hfa hfb h2
      exact ⟨by rw [hxy, e1], e2⟩

theorem flatComps_head (xs : List String) :
    flatComps xs = [] ∨ (flatComps xs).head? = some '/' := by
  cases xs with
  | nil => left; rfl
  | cons n rest => right; rw [flatComps_cons]; rfl

theorem flatComps_inj :
    ∀ xs ys : List String, (∀ n ∈ xs, goodName n = true) →
      (∀ n ∈ ys, goodName n = true) → flatComps xs = flatComps ys → xs = ys := by
  intro xs
  induction xs with
  | nil =>
    intro ys _ _ h
    cases ys with
    | nil => rfl
    | cons b ys2 => rw [flatComps_cons] at h; exact absurd h.symm (by simp [flatComps])
  | cons a xs2 ih =>
    intro ys hx hy h
    cases ys with
    | nil => rw [flatComps_cons] at h; exact absurd h (by simp [flatComps])
    | cons b ys2 =>
      rw [flatComps_cons, flatComps_cons] at h
      simp only [List.cons.injEq, true_and] at h
      have ha := goodName_spec (hx a (List.mem_cons_self a xs2))
      have hb := goodName_spec (hy b (List.mem_cons_self b ys2))
      obtain ⟨e1, e2⟩ := sep_chunk_inj a.data b.data (flatComps xs2) (flatComps ys2)
        ha.2.1 hb.2.1 (flatComps_head xs2) (flatComps_head ys2) h
      have hab : a = b := by
        have := congrArg String.mk e1
        rwa [strMk_data, strMk_data] at this
      have hxs : xs2 = ys2 := ih ys2
        (fun n hn => hx n (List.mem_cons_of_mem a hn))
        (fun n hn => hy n (List.mem_cons_of_mem b hn)) e2
      rw [hab, hxs]

theorem pathAppend_inj {p : String} {xs ys : List String}
    (hx : ∀ n ∈ xs, goodName n = true) (hy : ∀ n ∈ ys, goodName n = true)
    (h : pathAppend p xs = pathAppend p ys) : xs = ys := by
  have hd := congrArg String.data h
  rw [pathAppend_data, pathAppend_data] at hd
  exact flatComps_inj xs ys hx hy (List.append_cancel_left hd)

/-! ## Forest lemmas -/

/-- Induction over a forest alone (the tree motive is trivial). -/
theorem FSForest.inductionOn {motive : FSForest → Prop} (hnil : motive .nil)
    (hcons : ∀ c f, motive f → motive (.cons c f)) (f : FSForest) : motive f :=
  @FSForest.rec (fun _ => True) motive
    (fun _ _ => trivial) (fun _ _ _ => trivial) hnil
    (fun c rest _ ih => hcons c rest ih) f

theorem namesF_toList (f : FSForest) :
    f.namesF = f.toList.map FSTree.name := by
  induction f using FSForest.inductionOn with
  | hnil => rfl
  | hcons c rest ih => simp [FSForest.namesF, FSForest.toList, ih]

theorem wfbF_mem {f : FSForest} (hf : f.wfbF = true) :
    ∀ c ∈ f.toList, c.wfb = true := by
  induction f using FSForest.inductionOn with
  | hnil => intro c hc; simp [FSForest.toList] at hc
  | hcons x rest ih =>
    rw [FSForest.wfbF, Bool.and_eq_true] at hf
    intro c hc
    rw [FSForest.toList, List.mem_cons] at hc
    rcases hc with hc | hc
    · exact hc ▸ hf.1
    · exact ih hf.2 c hc

theorem nodupStr_head {x : String} {xs : List String}
    (h : nodupStr (x :: xs) = true) : x ∉ xs ∧ nodupStr xs = true := by
  rw [nodupStr, Bool.and_eq_true] at h
  refine ⟨?_, h.2⟩
  have := h.1
  simp at this
  exact this

theorem childNamed_spec {f : FSForest} {n : String} {c : FSTree}
    (h : f.childNamed n = some c) : c ∈ f.toList ∧ c.name = n := by
  induction f using FSForest.inductionOn with
  | hnil => simp [FSForest.childNamed] at h
  | hcons x rest ih =>
    rw [FSForest.childNamed] at h
    by_cases hx : x.name = n
    · rw [if_pos hx] at h
      have hxc : x = c := by injection h
      constructor
      · rw [FSForest.toList, ← hxc]
        exact List.mem_cons_self x rest.toList
      · rw [← hxc]; exact hx
    · rw [if_neg hx] at h
      obtain ⟨h1, h2⟩ := ih h
      exact ⟨List.mem_cons_of_mem x h1, h2⟩

theorem childNamed_of_mem {f : FSForest} {c : FSTree}
    (hnd : nodupStr f.namesF = true) (hc : c ∈ f.toList) :
    f.childNamed c.name = some c := by
  induction f using FSForest.inductionOn with
  | hnil => simp [FSForest.toList] at hc
  | hcons x rest ih =>
    rw [FSForest.namesF] at hnd
    obtain ⟨hnm, hnd2⟩ := nodupStr_head hnd
    rw [FSForest.toList, List.mem_cons] at hc
    rw [FSForest.childNamed]
    rcases hc with hc | hc
    · subst hc; rw [if_pos rfl]
    · have hne : x.name ≠ c.name := by
        intro he
        apply hnm
        rw [namesF_toList, he]
        exact List.mem_map_of_mem FSTree.name hc
      rw [if_neg hne]
      exact ih hnd2 hc

theorem childNamed_none {f : FSForest} {n : String}
    (h : ∀ c ∈ f.toList, c.name ≠ n) : f.childNamed n = none := by
  induction f using FSForest.inductionOn with
  | hnil => rfl
  | hcons x rest ih =>
    rw [FSForest.childNamed,
      if_neg (h x (List.mem_cons_self x rest.toList))]
    exact ih (fun c hc => h c (List.mem_cons_of_mem x hc))

theorem heightF_mem {f : FSForest} {c : FSTree} (hc : c ∈ f.toList) :
    c.height ≤ f.heightF := by
  induction f using FSForest.inductionOn with
  | hnil => simp [FSForest.toList] at hc
  | hcons x rest ih =>
    rw [FSForest.toList, List.mem_cons] at hc
    rw [FSForest.heightF]
    rcases hc with hc | hc
    · exact hc ▸ Nat.le_max_left _ _
    · exact (ih hc).trans (Nat.le_max_right _ _)

/-! ## Resolving mounted paths -/

theorem FSTree.wfb_name {t : FSTree} (h : t.wfb = true) :
    goodName t.name = true := by
  cases t with
  | file n c => exact h
  | dir n cs =>
    rw [FSTree.wfb, Bool.and_eq_true, Bool.and_eq_true] at h
    exact h.1.1

theorem FSTree.wfb_dir {nm : String} {cs : FSForest}
    (h : (FSTree.dir nm cs).wfb = true) :
    goodName nm = true ∧ nodupStr cs.namesF = true ∧ cs.wfbF = true := by
  rw [FSTree.wfb, Bool.and_eq_true, Bool.and_eq_true] at h
  exact ⟨h.1.1, h.1.2, h.2⟩

theorem findF_some_decomp :
    ∀ (k : Nat) (f : FSForest), sizeOf f ≤ k → ∀ (base q : String) (r : FSTree),
      f.wfbF = true → f.findF base q = some r →
      ∃ (n : String) (comps : List String), goodName n = true ∧
        (∀ m ∈ comps, goodName m = true) ∧
        q = pathAppend (base ++ "/" ++ n) comps := by
  intro k
  induction k with
  | zero =>
    intro f hf base q r _ h
    cases f with
    | nil => simp [FSForest.findF] at h
    | cons c rest => simp at hf
  | succ k ih =>
    intro f hf base q r hwf h
    cases f with
    | nil => simp [FSForest.findF] at h
    | cons c rest =>
      rw [FSForest.wfbF, Bool.and_eq_true] at hwf
      rw [FSForest.findF] at h
      cases hfind : c.find (base ++ "/" ++ c.name) q with
      | some r2 =>
        rw [FSTree.find.eq_def] at hfind
        by_cases hq : q = base ++ "/" ++ c.name
        · exact ⟨c.name, [], FSTree.wfb_name hwf.1, by simp, by simpa using hq⟩
        · rw [if_neg hq] at hfind
          cases c with
          | file n2 c2 => simp at hfind
          | dir n2 cs2 =>
            simp only at hfind
            have hsz : sizeOf cs2 ≤ k := by
              have h1 : sizeOf cs2 < sizeOf (FSTree.dir n2 cs2) := by
                simp only [FSTree.dir.sizeOf_spec]
                omega
              have h2 : sizeOf (FSTree.dir n2 cs2) <
                  sizeOf (FSForest.cons (FSTree.dir n2 cs2) rest) := by
                simp only [FSForest.cons.sizeOf_spec]
                omega
              omega
            have hwf2 : cs2.wfbF = true := (FSTree.wfb_dir hwf.1).2.2
            obtain ⟨n3, comps3, hg3, hgs3, hq3⟩ :=
              ih cs2 hsz (base ++ "/" ++ (FSTree.dir n2 cs2).name) q r2 hwf2 hfind
            refine ⟨(FSTree.dir n2 cs2).name, n3 :: comps3,
              FSTree.wfb_name hwf.1, ?_, ?_⟩
            · intro m hm
              rw [List.mem_cons] at hm
              rcases hm with hm | hm
              · exact hm ▸ hg3
              · exact hgs3 m hm
            · rw [hq3]; rfl
      | none =>
        rw [hfind] at h
        have hsz : sizeOf rest ≤ k := by
          have : sizeOf rest < sizeOf (FSForest.cons c rest) := by
            simp only [FSForest.cons.sizeOf_spec]
            omega
          omega
        exact ih rest hsz base q r hwf.2 h

theorem find_none_of_wrong_head {x : FSTree} {base c0 : String}
    {rest : List String} (hwx : x.wfb = true) (hne : x.name ≠ c0)
    (hc0 : goodName c0 = true) (hrest : ∀ m ∈ rest, goodName m = true) :
    x.find (base ++ "/" ++ x.name) (pathAppend base (c0 :: rest)) = none := by
  have hgoods1 : ∀ m ∈ c0 :: rest, goodName m = true := by
    intro m hm
    rw [List.mem_cons] at hm
    rcases hm with hm | hm
    · exact hm ▸ hc0
    · exact hrest m hm
  have hq : pathAppend base (c0 :: rest) ≠ base ++ "/" ++ x.name := by
    intro h
    have h2 : pathAppend base (c0 :: rest) = pathAppend base [x.name] := by
      rw [h]; rfl
    have h3 := pathAppend_inj hgoods1
      (by intro m hm
          rw [List.mem_singleton] at hm
          exact hm ▸ FSTree.wfb_name hwx) h2
    rw [List.cons.injEq] at h3
    exact hne h3.1.symm
  rw [FSTree.find.eq_def, if_neg hq]
  cases x with
  | file n c => rfl
  | dir n cs =>
    simp only
    cases hf : cs.findF (base ++ "/" ++ (FSTree.dir n cs).name)
        (pathAppend base (c0 :: rest)) with
    | none => rfl
    | some r =>
      exfalso
      obtain ⟨n3, comps3, hg3, hgs3, hq3⟩ := findF_some_decomp (sizeOf cs) cs
        le_rfl _ _ r (FSTree.wfb_dir hwx).2.2 hf
      have hq4 : pathAppend base (c0 :: rest) =
          pathAppend base ((FSTree.dir n cs).name :: n3 :: comps3) := by
        rw [hq3]; rfl
      have h5 := pathAppend_inj hgoods1
        (by intro m hm
            rw [List.mem_cons] at hm
            rcases hm with hm | hm
            · exact hm ▸ FSTree.wfb_name hwx
            · rw [List.mem_cons] at hm
              rcases hm with hm | hm
              · exact hm ▸ hg3
              · exact hgs3 m hm) hq4
      rw [List.cons.injEq] at h5
      exact hne h5.1.symm

theorem findF_none_of_wrong_head {f : FSForest} {base c0 : String}
    {rest : List String} (hwf : f.wfbF = true)
    (hnames : ∀ x ∈ f.toList, x.name ≠ c0) (hc0 : goodName c0 = true)
    (hrest : ∀ m ∈ rest, goodName m = true) :
    f.findF base (pathAppend base (c0 :: rest)) = none := by
  induction f using FSForest.inductionOn with
  | hnil => rfl
  | hcons x xs ih =>
    rw [FSForest.wfbF, Bool.and_eq_true] at hwf
    rw [FSForest.findF, find_none_of_wrong_head hwf.1
      (hnames x (List.mem_cons_self x xs.toList)) hc0 hrest]
    exact ih hwf.2 (fun y hy => hnames y (List.mem_cons_of_mem x hy))

theorem find_pathAppend :
    ∀ (comps : List String) (t : FSTree) (base : String), t.wfb = true →
      (∀ m ∈ comps, goodName m = true) →
      t.find base (pathAppend base comps) = FSTree.get comps t := by
  intro comps
  induction comps with
  | nil =>
    intro t base _ _
    rw [FSTree.find.eq_def]
    simp [pathAppend, FSTree.get]
  | cons c0 rest ih =>
    intro t base hwf hg
    have hc0 : goodName c0 = true := hg c0 (List.mem_cons_self c0 rest)
    have hrest : ∀ m ∈ rest, goodName m = true :=
      fun m hm => hg m (List.mem_cons_of_mem c0 hm)
    rw [FSTree.find.eq_def, if_neg (fun h => pathAppend_ne base c0 rest h)]
    cases t with
    | file n c => simp [FSTree.get]
    | dir nm cs =>
      obtain ⟨hgnm, hnd, hwfF⟩ := FSTree.wfb_dir hwf
      simp only [FSTree.get]
      clear hwf hgnm
      induction cs using FSForest.inductionOn with
      | hnil => rfl
      | hcons x xs ihf =>
        rw [FSForest.wfbF, Bool.and_eq_true] at hwfF
        rw [FSForest.namesF] at hnd
        obtain ⟨hnm, hnd2⟩ := nodupStr_head hnd
        rw [FSForest.findF, FSForest.childNamed]
        by_cases hx : x.name = c0
        · rw [if_pos hx]
          have hfx : x.find (base ++ "/" ++ x.name)
              (pathAppend base (c0 :: rest)) = FSTree.get rest x := by
            rw [hx]
            show x.find (base ++ "/" ++ c0)
              (pathAppend (base ++ "/" ++ c0) rest) = _
            exact ih x (base ++ "/" ++ c0) hwfF.1 hrest
          rw [hfx]
          cases hres : FSTree.get rest x with
          | some u =>
            show some u = FSTree.get rest x
            rw [hres]
          | none =>
            show xs.findF base (pathAppend base (c0 :: rest)) = FSTree.get rest x
            rw [hres]
            apply findF_none_of_wrong_head hwfF.2 _ hc0 hrest
            intro y hy hyc
            apply hnm
            rw [hx, ← hyc, namesF_toList]
            exact List.mem_map_of_mem FSTree.name hy
        · rw [if_neg hx]
          rw [find_none_of_wrong_head hwfF.1 hx hc0 hrest]
          exact ihf hnd2 hwfF.2

/-! ## Mounted-filesystem lemmas -/

theorem mount_files_at {root : String} {t : FSTree} (hwf : t.wfb = true)
    {comps : List String} (hg : ∀ m ∈ comps, goodName m = true) :
    (mount root t).files (pathAppend root comps) =
      (match FSTree.get comps t with
      | some (.file _ content) => some content
      | _ => none) := by
  show (match t.find root (pathAppend root comps) with
    | some (.file _ content) => some content
    | _ => none) = _
  rw [find_pathAppend comps t root hwf hg]

theorem mount_dirs_at {root : String} {t : FSTree} (hwf : t.wfb = true)
    {comps : List String} (hg : ∀ m ∈ comps, goodName m = true) :
    (mount root t).dirs (pathAppend root comps) =
      (match FSTree.get comps t with
      | some (.dir _ cs) => some cs.namesF
      | _ => none) := by
  show (match t.find root (pathAppend root comps) with
    | some (.dir _ cs) => some cs.namesF
    | _ => none) = _
  rw [find_pathAppend comps t root hwf hg]

theorem get_append (xs ys : List String) (t : FSTree) :
    FSTree.get (xs ++ ys) t =
      (match FSTree.get xs t with
      | some u => FSTree.get ys u
      | none => none) := by
  induction xs generalizing t with
  | nil => simp [FSTree.get]
  | cons n rest ih =>
    rw [List.cons_append]
    cases t with
    | file n2 c2 => simp [FSTree.get]
    | dir nm cs =>
      rw [FSTree.get, FSTree.get]
      cases cs.childNamed n with
      | some c => exact ih c
      | none => rfl

theorem noBackslash_mem {s : String} (h : noBackslash s = true) :
    '\\' ∉ s.data := by
  simpa [noBackslash] using h

theorem noBackslash_pathAppend {root : String} (hr : noBackslash root = true)
    {comps : List String} (hg : ∀ m ∈ comps, goodName m = true) :
    noBackslash (pathAppend root comps) = true := by
  have : '\\' ∉ (pathAppend root comps).data := by
    rw [pathAppend_data]
    intro hm
    rw [List.mem_append] at hm
    rcases hm with hm | hm
    · exact noBackslash_mem hr hm
    · rw [flatComps, List.mem_flatMap] at hm
      obtain ⟨n, hn, hmn⟩ := hm
      rw [List.mem_cons] at hmn
      rcases hmn with hmn | hmn
      · exact absurd hmn (by decide)
      · exact (goodName_spec (hg n hn)).2.2 hmn
  simpa [noBackslash] using this

theorem pathAppend_snoc (base : String) (comps : List String) (n : String) :
    pathAppend base (comps ++ [n]) = pathAppend base comps ++ "/" ++ n := by
  rw [pathAppend_append]
  rfl

theorem foldScan_some {α : Type} (g : String → Option (List LocalModel))
    (pf : α → String) (vf : α → List LocalModel) :
    ∀ (l : List α) (acc : List LocalModel),
      (∀ x ∈ l, g (pf x) = some (vf x)) →
      (l.map pf).foldl
        (fun a cur => a.bind fun lr => (g cur).map (fun r => lr ++ r)) (some acc)
        = some (acc ++ l.flatMap vf) := by
  intro l
  induction l with
  | nil => intro acc _; simp
  | cons x rest ih =>
    intro acc h
    rw [List.map_cons, List.foldl_cons]
    have hx := h x (List.mem_cons_self x rest)
    rw [show (some acc).bind
        (fun lr => (g (pf x)).map (fun r => lr ++ r)) =
        some (acc ++ vf x) by rw [Option.some_bind, hx]; rfl]
    rw [ih (acc ++ vf x) (fun y hy => h y (List.mem_cons_of_mem x hy))]
    simp

theorem piecesF_eq_flatMap (res : String → String) (p : String)
    (all : FSForest) (f : FSForest) :
    InsertModel.piecesF res p all f =
      f.toList.flatMap (InsertModel.pieceT res p all) := by
  induction f using FSForest.inductionOn with
  | hnil => rfl
  | hcons c rest ih =>
    rw [InsertModel.piecesF, FSForest.toList, List.flatMap_cons, ih]

theorem firstThumb_tree (fs : FileSys) (tp : String) :
    ∀ ts : FSForest,
      (∀ tc ∈ ts.toList, goodName tc.name = true ∧
        fs.isFile (tp ++ "/" ++ tc.name) =
          (match tc with | .file _ _ => true | .dir _ _ => false)) →
      firstThumb fs InsertModel.thumbExtOk
        (ts.toList.map (fun tc => tp ++ "/" ++ tc.name))
        = InsertModel.treeThumbF tp ts := by
  intro ts
  induction ts using FSForest.inductionOn with
  | hnil => intro _; rfl
  | hcons tc rest ih =>
    intro h
    obtain ⟨hg, hf⟩ := h tc (List.mem_cons_self tc rest.toList)
    rw [FSForest.toList, List.map_cons, firstThumb]
    have ihr := ih (fun y hy => h y (List.mem_cons_of_mem tc hy))
    cases tc with
    | file n c =>
      rw [show FSTree.name (FSTree.file n c) = n from rfl] at hg hf ⊢
      rw [hf, if_pos rfl]
      rw [cppBasename_append (goodName_spec hg).2.1]
      rw [InsertModel.treeThumbF]
      by_cases he : InsertModel.thumbExtOk (extAfterDot n) = true
      · rw [if_pos he, if_pos he]
      · rw [if_neg he, if_neg he]
        exact ihr
    | dir n cs =>
      rw [show FSTree.name (FSTree.dir n cs) = n from rfl] at hg hf ⊢
      rw [hf]
      rw [if_neg (by simp)]
      rw [InsertModel.treeThumbF]
      exact ihr

theorem get_wfb {t : FSTree} :
    ∀ {comps : List String} {u : FSTree}, t.wfb = true →
      FSTree.get comps t = some u → u.wfb = true := by
  intro comps
  induction comps generalizing t with
  | nil =>
    intro u hw h
    rw [FSTree.get] at h
    injection h with h
    exact h ▸ hw
  | cons n rest ih =>
    intro u hw h
    cases t with
    | file n2 c2 => simp [FSTree.get] at h
    | dir nm cs =>
      rw [FSTree.get] at h
      cases hc : cs.childNamed n with
      | none => rw [hc] at h; simp at h
      | some c =>
        rw [hc] at h
        exact ih (wfbF_mem (FSTree.wfb_dir hw).2.2 c (childNamed_spec hc).1) h

theorem noBackslash_join {p n : String} (hp : noBackslash p = true)
    (hn : '\\' ∉ n.data) : noBackslash (p ++ "/" ++ n) = true := by
  have : '\\' ∉ (p ++ "/" ++ n).data := by
    rw [show (p ++ "/" ++ n).data = p.data ++ '/' :: n.data by simp [strData_append]]
    intro hm
    rw [List.mem_append, List.mem_cons] at hm
    rcases hm with hm | hm | hm
    · exact noBackslash_mem hp hm
    · exact absurd hm (by decide)
    · exact hn hm
  simpa [noBackslash] using this

theorem fileBranch_append (fs : FileSys) (res : String → String)
    {p n : String} (hp : noBackslash p = true) (hn : goodName n = true) :
    InsertModel.fileBranch fs res (p ++ "/" ++ n) =
      (if n = "model.config" then
        [⟨"", p ++ "/" ++ n, res p,
          if fs.existsPath (p ++ "/thumbnails") then
            firstThumb fs InsertModel.thumbExtOk (fs.ls (p ++ "/thumbnails"))
          else ""⟩]
      else []) := by
  obtain ⟨hne, hsl, hbs⟩ := goodName_spec hn
  have hbase := cppBasename_append (p := p) (n := n) hsl
  have hpar := cppParentPath_append (p := p) (n := n) hsl
  unfold cppBasename at hbase
  unfold cppParentPath at hpar
  rw [cppRfind_append_sep hsl] at hbase hpar
  unfold InsertModel.fileBranch
  dsimp only
  rw [changeToUnixPath_id (noBackslash_join hp hbs)]
  rw [cppRfind_append_sep hsl, hbase, hpar]

theorem strEq_of_data {a b : String} (h : a.data = b.data) : a = b := by
  have := congrArg String.mk h
  rwa [strMk_data, strMk_data] at this

theorem slash_thumbnails (p : String) :
    p ++ "/thumbnails" = p ++ "/" ++ "thumbnails" := by
  apply strEq_of_data
  simp [strData_append, List.append_assoc]

theorem findFuel_mount (res : String → String) (root : String) (t : FSTree)
    (hbs : noBackslash root = true) (hwf : t.wfb = true) :
    ∀ (fuel : Nat) (comps : List String) (nm : String) (cs : FSForest),
      (∀ m ∈ comps, goodName m = true) →
      FSTree.get comps t = some (.dir nm cs) →
      cs.heightF + 2 ≤ fuel →
      InsertModel.findFuel (mount root t) res fuel (pathAppend root comps) =
        some (InsertModel.dirResult res (pathAppend root comps) cs) := by
  intro fuel
  induction fuel with
  | zero => intro comps nm cs _ _ hf; omega
  | succ k ih =>
    intro comps nm cs hg hget hfuel
    have hdirwf : (FSTree.dir nm cs).wfb = true := get_wfb hwf hget
    obtain ⟨hgnm, hnd, hwcs⟩ := FSTree.wfb_dir hdirwf
    have hpnb : noBackslash (pathAppend root comps) = true :=
      noBackslash_pathAppend hbs hg
    have hdirs : (mount root t).dirs (pathAppend root comps) =
        some cs.namesF := by
      rw [mount_dirs_at hwf hg, hget]
    have hchild : ∀ c ∈ cs.toList,
        InsertModel.findFuel (mount root t) res k
          (pathAppend root comps ++ "/" ++ c.name) =
          some (InsertModel.pieceT res (pathAppend root comps) cs c) := by
      intro c hc
      have hcw : c.wfb = true := wfbF_mem hwcs c hc
      have hcg : goodName c.name = true := FSTree.wfb_name hcw
      have hg2 : ∀ m ∈ comps ++ [c.name], goodName m = true := by
        intro m hm
        rw [List.mem_append, List.mem_singleton] at hm
        rcases hm with hm | hm
        · exact hg m hm
        · exact hm ▸ hcg
      have hget2 : FSTree.get (comps ++ [c.name]) t = some c := by
        rw [get_append, hget]
        show FSTree.get [c.name] (FSTree.dir nm cs) = some c
        rw [FSTree.get, childNamed_of_mem hnd hc]
        rfl
      have hsnoc : pathAppend root (comps ++ [c.name]) =
          pathAppend root comps ++ "/" ++ c.name := pathAppend_snoc root comps c.name
      cases c with
      | dir n2 gs2 =>
        have hh : FSTree.height (FSTree.dir n2 gs2) ≤ cs.heightF :=
          heightF_mem hc
        rw [FSTree.height] at hh
        have hrun := ih (comps ++ [(FSTree.dir n2 gs2).name]) n2 gs2 hg2 hget2
          (by omega)
        rw [hsnoc] at hrun
        rw [hrun, InsertModel.pieceT, InsertModel.dirResult]
        rfl
      | file n2 content2 =>
        cases k with
        | zero => omega
        | succ k2 =>
          have hfiles2 : (mount root t).files
              (pathAppend root comps ++ "/" ++ (FSTree.file n2 content2).name) =
              some content2 := by
            rw [← hsnoc, mount_files_at hwf hg2, hget2]
          have hdirs2 : (mount root t).dirs
              (pathAppend root comps ++ "/" ++ (FSTree.file n2 content2).name) =
              none := by
            rw [← hsnoc, mount_dirs_at hwf hg2, hget2]
          rw [InsertModel.findFuel]
          rw [show (mount root t).isDir
              (pathAppend root comps ++ "/" ++ (FSTree.file n2 content2).name) = false by
            rw [FileSys.isDir, hdirs2]; rfl]
          rw [show (mount root t).isFile
              (pathAppend root comps ++ "/" ++ (FSTree.file n2 content2).name) = true by
            rw [FileSys.isFile, hfiles2]; rfl]
          simp only [Bool.false_eq_true, if_false, if_true]
          rw [show (FSTree.file n2 content2).name = n2 from rfl]
          have hcg2 : goodName n2 = true := hcg
          rw [fileBranch_append (mount root t) res hpnb hcg2]
          rw [InsertModel.pieceT]
          by_cases hn2 : n2 = "model.config"
          · rw [if_pos hn2, if_pos hn2]
            subst hn2
            rw [InsertModel.record]
            have hthumbEq :
                (if (mount root t).existsPath (pathAppend root comps ++ "/thumbnails") then
                  firstThumb (mount root t) InsertModel.thumbExtOk
                    ((mount root t).ls (pathAppend root comps ++ "/thumbnails"))
                else "") =
                (match cs.childNamed "thumbnails" with
                | some (.dir _ ts) =>
                  InsertModel.treeThumbF
                    (pathAppend root comps ++ "/" ++ "thumbnails") ts
                | _ => "") := by
              have hgT : ∀ m ∈ comps ++ ["thumbnails"], goodName m = true := by
                intro m hm
                rw [List.mem_append, List.mem_singleton] at hm
                rcases hm with hm | hm
                · exact hg m hm
                · exact hm ▸ (by decide)
              have hsnocT : pathAppend root (comps ++ ["thumbnails"]) =
                  pathAppend root comps ++ "/" ++ "thumbnails" :=
                pathAppend_snoc root comps "thumbnails"
              rw [slash_thumbnails]
              have hgetT : FSTree.get (comps ++ ["thumbnails"]) t =
                  (match cs.childNamed "thumbnails" with
                  | some c => some c
                  | none => none) := by
                rw [get_append, hget]
                show FSTree.get ["thumbnails"] (FSTree.dir nm cs) = _
                rw [FSTree.get]
                cases cs.childNamed "thumbnails" with
                | some c => rfl
                | none => rfl
              cases hth : cs.childNamed "thumbnails" with
              | none =>
                rw [hth] at hgetT
                rw [show (mount root t).existsPath
                    (pathAppend root comps ++ "/" ++ "thumbnails") = false by
                  rw [FileSys.existsPath, ← hsnocT, FileSys.isFile,
                    FileSys.isDir, mount_files_at hwf hgT,
                    mount_dirs_at hwf hgT, hgetT]
                  rfl]
                rfl
              | some tc =>
                rw [hth] at hgetT
                have htc := childNamed_spec hth
                cases tc with
                | file a b =>
                  rw [show (mount root t).existsPath
                      (pathAppend root comps ++ "/" ++ "thumbnails") = true by
                    rw [FileSys.existsPath, ← hsnocT, FileSys.isFile,
                      mount_files_at hwf hgT, hgetT]
                    rfl]
                  rw [if_pos rfl]
                  rw [show (mount root t).ls
                      (pathAppend root comps ++ "/" ++ "thumbnails") = [] by
                    rw [FileSys.ls, ← hsnocT, mount_dirs_at hwf hgT, hgetT]
                    rfl]
                  rfl
                | dir tn ts =>
                  have hTwf : (FSTree.dir tn ts).wfb = true :=
                    get_wfb hwf (hgetT.symm ▸ rfl : FSTree.get (comps ++ ["thumbnails"]) t = some (FSTree.dir tn ts))
                  obtain ⟨hgtn, hndT, hwT⟩ := FSTree.wfb_dir hTwf
                  rw [show (mount root t).existsPath
                      (pathAppend root comps ++ "/" ++ "thumbnails") = true by
                    rw [FileSys.existsPath, ← hsnocT, FileSys.isDir,
                      mount_dirs_at hwf hgT, hgetT]
                    simp]
                  rw [if_pos rfl]
                  rw [show (mount root t).ls
                      (pathAppend root comps ++ "/" ++ "thumbnails") =
                      ts.toList.map (fun tc =>
                        pathAppend root comps ++ "/" ++ "thumbnails" ++ "/" ++ tc.name) by
                    rw [FileSys.ls, ← hsnocT, mount_dirs_at hwf hgT, hgetT]
                    rw [show (some ts.namesF).getD [] = ts.namesF from rfl]
                    rw [namesF_toList, List.map_map]
                    rw [hsnocT]
                    rfl]
                  rw [firstThumb_tree (mount root t)
                    (pathAppend root comps ++ "/" ++ "thumbnails") ts]
                  intro td htd
                  have htdw : td.wfb = true := wfbF_mem hwT td htd
                  refine ⟨FSTree.wfb_name htdw, ?_⟩
                  have hgT2 : ∀ m ∈ (comps ++ ["thumbnails"]) ++ [td.name],
                      goodName m = true := by
                    intro m hm
                    rw [List.mem_append, List.mem_singleton] at hm
                    rcases hm with hm | hm
                    · exact hgT m hm
                    · exact hm ▸ FSTree.wfb_name htdw
                  have hget3 : FSTree.get ((comps ++ ["thumbnails"]) ++ [td.name]) t =
                      some td := by
                    rw [get_append, hgetT]
                    show FSTree.get [td.name] (FSTree.dir tn ts) = some td
                    rw [FSTree.get, childNamed_of_mem hndT htd]
                    rfl
                  have hsnoc3 : pathAppend root ((comps ++ ["thumbnails"]) ++ [td.name]) =
                      pathAppend root comps ++ "/" ++ "thumbnails" ++ "/" ++ td.name := by
                    rw [pathAppend_snoc, hsnocT]
                  rw [FileSys.isFile, ← hsnoc3, mount_files_at hwf hgT2, hget3]
                  cases td with
                  | file a b => rfl
                  | dir a b => rfl
            rw [hthumbEq]
          · rw [if_neg hn2, if_neg hn2]
    have hls : (mount root t).ls (pathAppend root comps) =
        cs.toList.map (fun c => pathAppend root comps ++ "/" ++ c.name) := by
      rw [FileSys.ls, hdirs]
      rw [show (some cs.namesF).getD [] = cs.namesF from rfl]
      rw [namesF_toList, List.map_map]
      rfl
    rw [InsertModel.findFuel]
    rw [show (mount root t).isDir (pathAppend root comps) = true by
      rw [FileSys.isDir, hdirs]; rfl]
    rw [if_pos rfl, hls]
    rw [foldScan_some (fun cur => InsertModel.findFuel (mount root t) res k cur)
      (fun c => pathAppend root comps ++ "/" ++ c.name)
      (fun c => InsertModel.pieceT res (pathAppend root comps) cs c)
      cs.toList [] hchild]
    rw [InsertModel.dirResult, piecesF_eq_flatMap]
    rw [List.nil_append]

/-! ## Counting `model.config` files -/

theorem configCount_mem_le {f : FSForest} {c : FSTree} (hc : c ∈ f.toList) :
    c.configCount ≤ f.configCountF := by
  induction f using FSForest.inductionOn with
  | hnil => simp [FSForest.toList] at hc
  | hcons x xs ih =>
    rw [FSForest.toList, List.mem_cons] at hc
    rw [FSForest.configCountF]
    rcases hc with hc | hc
    · exact hc ▸ Nat.le_add_right _ _
    · exact (ih hc).trans (Nat.le_add_left _ _)

theorem config_member_count {f : FSForest} {content : String}
    (h : FSTree.file "model.config" content ∈ f.toList) :
    1 ≤ f.configCountF := by
  have := configCount_mem_le h
  rw [FSTree.configCount] at this
  simpa using this

theorem piecesF_of_zero :
    ∀ (k : Nat) (f : FSForest), sizeOf f ≤ k → f.configCountF = 0 →
      ∀ (res : String → String) (p : String) (all : FSForest),
        InsertModel.piecesF res p all f = [] := by
  intro k
  induction k with
  | zero =>
    intro f hf h res p all
    cases f with
    | nil => rfl
    | cons c rest => simp at hf
  | succ k ih =>
    intro f hf hz res p all
    cases f with
    | nil => rfl
    | cons c rest =>
      rw [FSForest.configCountF] at hz
      have hc0 : c.configCount = 0 := by omega
      have hr0 : rest.configCountF = 0 := by omega
      rw [InsertModel.piecesF]
      have hrest : InsertModel.piecesF res p all rest = [] := by
        apply ih rest _ hr0
        have : sizeOf rest < sizeOf (FSForest.cons c rest) := by
          simp only [FSForest.cons.sizeOf_spec]
          omega
        omega
      rw [hrest]
      cases c with
      | file n co =>
        rw [FSTree.configCount] at hc0
        rw [InsertModel.pieceT]
        rw [if_neg (by intro hn; rw [if_pos hn] at hc0; simp at hc0)]
        rfl
      | dir n gs =>
        rw [FSTree.configCount] at hc0
        rw [InsertModel.pieceT]
        have hgs : InsertModel.piecesF res (p ++ "/" ++ n) gs gs = [] := by
          apply ih gs _ hc0
          have h1 : sizeOf gs < sizeOf (FSTree.dir n gs) := by
            simp only [FSTree.dir.sizeOf_spec]
            omega
          have h2 : sizeOf (FSTree.dir n gs) <
              sizeOf (FSForest.cons (FSTree.dir n gs) rest) := by
            simp only [FSForest.cons.sizeOf_spec]
            omega
          omega
        rw [hgs]
        rfl

theorem pieceT_of_zero {c : FSTree} (h : c.configCount = 0)
    (res : String → String) (p : String) (all : FSForest) :
    InsertModel.pieceT res p all c = [] := by
  cases c with
  | file n co =>
    rw [FSTree.configCount] at h
    rw [InsertModel.pieceT]
    rw [if_neg (by intro hn; rw [if_pos hn] at h; simp at h)]
  | dir n gs =>
    rw [FSTree.configCount] at h
    rw [InsertModel.pieceT]
    exact piecesF_of_zero (sizeOf gs) gs le_rfl h res _ gs

theorem piecesF_single {content : String} :
    ∀ (f : FSForest), FSTree.file "model.config" content ∈ f.toList →
      f.configCountF = 1 →
      ∀ (res : String → String) (p : String) (all : FSForest),
        InsertModel.piecesF res p all f = [InsertModel.record res p all] := by
  intro f
  induction f using FSForest.inductionOn with
  | hnil => intro hm; simp [FSForest.toList] at hm
  | hcons x xs ih =>
    intro hm h1 res p all
    rw [FSForest.configCountF] at h1
    rw [FSForest.toList, List.mem_cons] at hm
    rw [InsertModel.piecesF]
    rcases hm with hm | hm
    · rw [← hm, InsertModel.pieceT, if_pos rfl]
      rw [← hm, FSTree.configCount, if_pos rfl] at h1
      have hxs : xs.configCountF = 0 := by omega
      rw [piecesF_of_zero (sizeOf xs) xs le_rfl hxs res p all]
      simp
    · have hge : 1 ≤ xs.configCountF := config_member_count hm
      have hx0 : x.configCount = 0 := by omega
      rw [pieceT_of_zero hx0 res p all, List.nil_append]
      exact ih hm (by omega) res p all

theorem dirResult_single {cs : FSForest} {content : String}
    (hmem : FSTree.file "model.config" content ∈ cs.toList)
    (hcount : cs.configCountF = 1) (res : String → String) (p : String) :
    InsertModel.dirResult res p cs = [InsertModel.record res p cs] :=
  piecesF_single cs hmem hcount res p cs

/-! ## `ResourceSpawner` on a mounted tree -/

theorem RS_Load_join (fs : FileSys) (res : String → String)
    (parse : String → Option XmlDoc) {p n : String} (hn : goodName n = true) :
    ResourceSpawner.LoadLocalModel fs res parse (p ++ "/" ++ n) =
      (if !fs.isFile (p ++ "/" ++ n) || n ≠ "model.config" then none
      else some ⟨extractName ((fs.files (p ++ "/" ++ "model.config")).bind parse),
        "", res p,
        if fs.existsPath (p ++ "/" ++ "thumbnails") then
          firstThumb fs ResourceSpawner.thumbExtOk (fs.ls (p ++ "/" ++ "thumbnails"))
        else ""⟩) := by
  unfold ResourceSpawner.LoadLocalModel
  dsimp only
  rw [cppBasename_append (goodName_spec hn).2.1,
    cppParentPath_append (goodName_spec hn).2.1]

theorem RS_FindLocalModels_mount_single (res : String → String)
    (parse : String → Option XmlDoc) (root nm : String) {cs : FSForest}
    {content : String} (hwf : (FSTree.dir nm cs).wfb = true)
    (hmem : FSTree.file "model.config" content ∈ cs.toList)
    (hcount : cs.configCountF = 1) :
    ∃ m : LocalModel,
      ResourceSpawner.FindLocalModels (mount root (FSTree.dir nm cs)) res parse
        root = [m] ∧ m.configPath = "" ∧ m.sdfPath = res root := by
  obtain ⟨hgnm, hnd, hwcs⟩ := FSTree.wfb_dir hwf
  have hg0 : ∀ m ∈ ([] : List String), goodName m = true := by simp
  have hdirs0 : (mount root (FSTree.dir nm cs)).dirs root = some cs.namesF := by
    have h := @mount_dirs_at root _ hwf _ hg0
    rw [show pathAppend root [] = root from rfl] at h
    rw [h]
    rfl
  have hfilec : ∀ c ∈ cs.toList,
      (mount root (FSTree.dir nm cs)).files (root ++ "/" ++ c.name) =
        (match c with | .file _ co => some co | .dir _ _ => none) := by
    intro c hc
    have hcg : goodName c.name = true := FSTree.wfb_name (wfbF_mem hwcs c hc)
    have hg1 : ∀ m ∈ [c.name], goodName m = true := by
      intro m hm
      rw [List.mem_singleton] at hm
      exact hm ▸ hcg
    have h := @mount_files_at root _ hwf _ hg1
    rw [show pathAppend root [c.name] = root ++ "/" ++ c.name from rfl] at h
    rw [h]
    rw [show FSTree.get [c.name] (FSTree.dir nm cs) =
      (match cs.childNamed c.name with
       | some u => FSTree.get [] u
       | none => none) from rfl]
    rw [childNamed_of_mem hnd hc]
    cases c with
    | file a b => rfl
    | dir a b => rfl
  have hdirc : ∀ c ∈ cs.toList,
      (mount root (FSTree.dir nm cs)).dirs (root ++ "/" ++ c.name) =
        (match c with | .file _ _ => none | .dir _ gs => some gs.namesF) := by
    intro c hc
    have hcg : goodName c.name = true := FSTree.wfb_name (wfbF_mem hwcs c hc)
    have hg1 : ∀ m ∈ [c.name], goodName m = true := by
      intro m hm
      rw [List.mem_singleton] at hm
      exact hm ▸ hcg
    have h := @mount_dirs_at root _ hwf _ hg1
    rw [show pathAppend root [c.name] = root ++ "/" ++ c.name from rfl] at h
    rw [h]
    rw [show FSTree.get [c.name] (FSTree.dir nm cs) =
      (match cs.childNamed c.name with
       | some u => FSTree.get [] u
       | none => none) from rfl]
    rw [childNamed_of_mem hnd hc]
    cases c with
    | file a b => rfl
    | dir a b => rfl
  have hchildzero : ∀ c ∈ cs.toList, c.configCount = 0 →
      (if (mount root (FSTree.dir nm cs)).isDir (root ++ "/" ++ c.name) then
        (ResourceSpawner.LoadLocalModel (mount root (FSTree.dir nm cs)) res parse
          (root ++ "/" ++ c.name ++ "/" ++ "model.config")).toList
      else
        (ResourceSpawner.LoadLocalModel (mount root (FSTree.dir nm cs)) res parse
          (root ++ "/" ++ c.name)).toList) = [] := by
    intro c hc hz
    have hcg : goodName c.name = true := FSTree.wfb_name (wfbF_mem hwcs c hc)
    cases c with
    | file n co =>
      rw [show (FSTree.file n co).name = n from rfl]
      have hdn := hdirc _ hc
      rw [show (FSTree.file n co).name = n from rfl] at hdn
      rw [show (mount root (FSTree.dir nm cs)).isDir (root ++ "/" ++ n) = false by
        rw [FileSys.isDir, hdn]; rfl]
      simp only [Bool.false_eq_true, if_false]
      rw [RS_Load_join _ _ _ (show goodName n = true from hcg)]
      rw [FSTree.configCount] at hz
      have hne : n ≠ "model.config" := by
        intro he
        rw [if_pos he] at hz
        simp at hz
      rw [if_pos (by simp [hne])]
      rfl
    | dir n gs =>
      rw [show (FSTree.dir n gs).name = n from rfl]
      have hdn := hdirc _ hc
      rw [show (FSTree.dir n gs).name = n from rfl] at hdn
      rw [show (mount root (FSTree.dir nm cs)).isDir (root ++ "/" ++ n) = true by
        rw [FileSys.isDir, hdn]; rfl]
      rw [if_pos rfl]
      rw [RS_Load_join _ _ _ (show goodName "model.config" = true by decide)]
      rw [FSTree.configCount] at hz
      have hwgs : (FSTree.dir n gs).wfb = true := wfbF_mem hwcs _ hc
      obtain ⟨_, hndgs, hwgsF⟩ := FSTree.wfb_dir hwgs
      have hnofile : (mount root (FSTree.dir nm cs)).files
          (root ++ "/" ++ n ++ "/" ++ "model.config") = none := by
        have hg2 : ∀ m ∈ [n, "model.config"], goodName m = true := by
          intro m hm
          rw [List.mem_cons, List.mem_singleton] at hm
          rcases hm with hm | hm
          · exact hm ▸ hcg
          · exact hm ▸ (by decide)
        have h := @mount_files_at root _ hwf _ hg2
        rw [show pathAppend root [n, "model.config"] =
          root ++ "/" ++ n ++ "/" ++ "model.config" from rfl] at h
        rw [h]
        rw [show FSTree.get [n, "model.config"] (FSTree.dir nm cs) =
          (match cs.childNamed n with
           | some u => FSTree.get ["model.config"] u
           | none => none) from rfl]
        rw [show cs.childNamed n = cs.childNamed (FSTree.dir n gs).name from rfl,
          childNamed_of_mem hnd hc]
        show (match FSTree.get ["model.config"] (FSTree.dir n gs) with
          | some (FSTree.file _ content) => some content
          | _ => none) = none
        rw [show FSTree.get ["model.config"] (FSTree.dir n gs) =
          (match gs.childNamed "model.config" with
           | some u => FSTree.get [] u
           | none => none) from rfl]
        cases hcn : gs.childNamed "model.config" with
        | none => rfl
        | some u =>
          obtain ⟨hu1, hu2⟩ := childNamed_spec hcn
          cases u with
          | dir a b => rfl
          | file a b =>
            exfalso
            rw [show (FSTree.file a b).name = a from rfl] at hu2
            subst hu2
            have := config_member_count hu1
            omega
      rw [if_pos (by rw [FileSys.isFile, hnofile]; rfl)]
      rfl
  have hchildone :
      ∃ m : LocalModel,
        (if (mount root (FSTree.dir nm cs)).isDir (root ++ "/" ++ "model.config") then
          (ResourceSpawner.LoadLocalModel (mount root (FSTree.dir nm cs)) res parse
            (root ++ "/" ++ "model.config" ++ "/" ++ "model.config")).toList
        else
          (ResourceSpawner.LoadLocalModel (mount root (FSTree.dir nm cs)) res parse
            (root ++ "/" ++ "model.config")).toList) = [m]
        ∧ m.configPath = "" ∧ m.sdfPath = res root := by
    have hisd : (mount root (FSTree.dir nm cs)).isDir
        (root ++ "/" ++ "model.config") = false := by
      have h := hdirc _ hmem
      rw [show (FSTree.file "model.config" content).name = "model.config" from rfl] at h
      rw [FileSys.isDir, h]
      rfl
    have hisf : (mount root (FSTree.dir nm cs)).files
        (root ++ "/" ++ "model.config") = some content := by
      have h := hfilec _ hmem
      rw [show (FSTree.file "model.config" content).name = "model.config" from rfl] at h
      rw [h]
    rw [hisd]
    simp only [Bool.false_eq_true, if_false]
    rw [RS_Load_join _ _ _ (show goodName "model.config" = true by decide)]
    rw [if_neg (by rw [FileSys.isFile, hisf]; simp)]
    exact ⟨_, rfl, rfl, rfl⟩
  have hmain : ∀ (f : FSForest), (∀ y ∈ f.toList, y ∈ cs.toList) →
      FSTree.file "model.config" content ∈ f.toList → f.configCountF = 1 →
      ∃ m : LocalModel,
        (f.toList.map (fun c => root ++ "/" ++ c.name)).flatMap
          (fun cur =>
            if (mount root (FSTree.dir nm cs)).isDir cur then
              (ResourceSpawner.LoadLocalModel (mount root (FSTree.dir nm cs))
                res parse (cur ++ "/" ++ "model.config")).toList
            else
              (ResourceSpawner.LoadLocalModel (mount root (FSTree.dir nm cs))
                res parse cur).toList) = [m]
        ∧ m.configPath = "" ∧ m.sdfPath = res root := by
    intro f
    induction f using FSForest.inductionOn with
    | hnil => intro _ hm; simp [FSForest.toList] at hm
    | hcons x xs ihf =>
      intro hsub hm h1
      have hzeroScan : ∀ (g : FSForest), (∀ y ∈ g.toList, y ∈ cs.toList) →
          g.configCountF = 0 →
          (g.toList.map (fun c => root ++ "/" ++ c.name)).flatMap
            (fun cur =>
              if (mount root (FSTree.dir nm cs)).isDir cur then
                (ResourceSpawner.LoadLocalModel (mount root (FSTree.dir nm cs))
                  res parse (cur ++ "/" ++ "model.config")).toList
              else
                (ResourceSpawner.LoadLocalModel (mount root (FSTree.dir nm cs))
                  res parse cur).toList) = [] := by
        intro g
        induction g using FSForest.inductionOn with
        | hnil => intro _ _; rfl
        | hcons y ys ihg =>
          intro hsub2 hz2
          rw [FSForest.configCountF] at hz2
          rw [FSForest.toList, List.map_cons, List.flatMap_cons]
          rw [hchildzero y (hsub2 y (List.mem_cons_self y ys.toList)) (by omega)]
          rw [List.nil_append]
          exact ihg (fun z hz => hsub2 z (List.mem_cons_of_mem y hz)) (by omega)
      rw [FSForest.configCountF] at h1
      rw [FSForest.toList, List.map_cons, List.flatMap_cons]
      rw [FSForest.toList, List.mem_cons] at hm
      rcases hm with hm | hm
      · obtain ⟨m, hscan, hcfg, hsdf⟩ := hchildone
        rw [← hm] at h1
        rw [FSTree.configCount, if_pos rfl] at h1
        refine ⟨m, ?_, hcfg, hsdf⟩
        rw [← hm]
        rw [show (FSTree.file "model.config" content).name = "model.config" from rfl]
        rw [hscan]
        rw [hzeroScan xs (fun z hz => hsub z (List.mem_cons_of_mem x hz)) (by omega)]
        simp
      · have hge : 1 ≤ xs.configCountF := config_member_count hm
        have hx0 : x.configCount = 0 := by omega
        rw [hchildzero x (hsub x (List.mem_cons_self x xs.toList)) hx0,
          List.nil_append]
        exact ihf (fun z hz => hsub z (List.mem_cons_of_mem x hz)) hm (by omega)
  obtain ⟨m, hflat, hcfg, hsdf⟩ := hmain cs (fun y hy => hy) hmem hcount
  refine ⟨m, ?_, hcfg, hsdf⟩
  rw [ResourceSpawner.FindLocalModels]
  rw [show (mount root (FSTree.dir nm cs)).isDir root = true by
    rw [FileSys.isDir, hdirs0]; rfl]
  rw [if_pos rfl]
  rw [show (mount root (FSTree.dir nm cs)).ls root =
      cs.toList.map (fun c => root ++ "/" ++ c.name) by
    rw [FileSys.ls, hdirs0]
    rw [show (some cs.namesF).getD [] = cs.namesF from rfl]
    rw [namesF_toList, List.map_map]
    rfl]
  exact hflat

/-! ## Helpers for the claim theorems -/

theorem firstThumb_eq_spec (fs : FileSys) (extOk : String → Bool) :
    ∀ entries : List String,
      firstThumb fs extOk entries = specFirstThumb fs extOk entries := by
  intro entries
  induction entries with
  | nil => rfl
  | cons cur rest ih =>
    rw [firstThumb, specFirstThumb, List.find?]
    by_cases hf : fs.isFile cur
    · rw [if_pos hf]
      by_cases he : extOk (extAfterDot (cppBasename cur)) = true
      · rw [if_pos he]
        rw [show (fs.isFile cur && extOk (extAfterDot (cppBasename cur))) = true
          by rw [hf, he]; rfl]
      · rw [if_neg he]
        rw [show (fs.isFile cur && extOk (extAfterDot (cppBasename cur))) = false
          by rw [Bool.and_eq_false_iff]; right; simpa using he]
        rw [ih, specFirstThumb]
    · rw [if_neg hf]
      rw [show (fs.isFile cur && extOk (extAfterDot (cppBasename cur))) = false
        by rw [Bool.and_eq_false_iff]; left; simpa using hf]
      rw [ih, specFirstThumb]

theorem foldScan_none {g : String → Option (List LocalModel)} :
    ∀ paths : List String,
      paths.foldl
        (fun a cur => a.bind fun lr => (g cur).map (fun r => lr ++ r)) none = none := by
  intro paths
  induction paths with
  | nil => rfl
  | cons p rest ih => rw [List.foldl_cons, Option.none_bind]; exact ih

theorem foldScan_mem {g : String → Option (List LocalModel)} :
    ∀ (paths : List String) (acc l : List LocalModel),
      paths.foldl
        (fun a cur => a.bind fun lr => (g cur).map (fun r => lr ++ r)) (some acc) = some l →
      ∀ m ∈ l, m ∈ acc ∨ ∃ p ∈ paths, ∃ r, g p = some r ∧ m ∈ r := by
  intro paths
  induction paths with
  | nil =>
    intro acc l h m hm
    rw [List.foldl_nil] at h
    injection h with h
    exact Or.inl (h ▸ hm)
  | cons p rest ih =>
    intro acc l h m hm
    rw [List.foldl_cons] at h
    cases hg : g p with
    | none =>
      rw [Option.some_bind, hg] at h
      rw [show (Option.map (fun r => acc ++ r) (none : Option (List LocalModel)))
        = none from rfl] at h
      rw [foldScan_none rest] at h
      exact absurd h (by simp)
    | some r =>
      rw [Option.some_bind, hg] at h
      rw [show (Option.map (fun r => acc ++ r) (some r)) = some (acc ++ r)
        from rfl] at h
      rcases ih (acc ++ r) l h m hm with hacc | ⟨p2, hp2, r2, hg2, hm2⟩
      · rw [List.mem_append] at hacc
        rcases hacc with hacc | hacc
        · exact Or.inl hacc
        · exact Or.inr ⟨p, List.mem_cons_self p rest, r, hg, hacc⟩
      · exact Or.inr ⟨p2, List.mem_cons_of_mem p hp2, r2, hg2, hm2⟩

theorem fileBranch_name {fs : FileSys} {res : String → String} {p : String}
    {m : LocalModel} (hm : m ∈ InsertModel.fileBranch fs res p) :
    m.name = "" := by
  unfold InsertModel.fileBranch at hm
  dsimp only at hm
  by_cases hc : cppSubstrFrom (changeToUnixPath p)
      (idxAfter (cppRfind '/' (changeToUnixPath p))) = "model.config"
  · rw [if_pos hc] at hm
    rw [List.mem_singleton] at hm
    rw [hm]
  · rw [if_neg hc] at hm
    simp at hm

/-! ## Claim theorems -/

/-- C4: for every discovered descriptor, the thumbnail search enumerates the
sibling `thumbnails` directory (if it exists) and sets `thumbnailPath` to the
first regular file, in enumeration order, whose extension case-sensitively
equals one of `png`, `jpg`, `jpeg` (plus `svg` in the `ResourceSpawner`
variant), stopping at the first match with no sorting and no format
preference; if no file matches, `thumbnailPath` is left empty. -/
theorem claim_C4 :
    (∀ (fs : FileSys) (extOk : String → Bool) (entries : List String),
      firstThumb fs extOk entries = specFirstThumb fs extOk entries)
    ∧ (∀ (fs : FileSys) (res : String → String) (parse : String → Option XmlDoc)
        (path : String) (m : LocalModel),
        ResourceSpawner.LoadLocalModel fs res parse path = some m →
        m.thumbnailPath =
          (if fs.existsPath (cppParentPath path ++ "/" ++ "thumbnails") then
            specFirstThumb fs ResourceSpawner.thumbExtOk
              (fs.ls (cppParentPath path ++ "/" ++ "thumbnails"))
          else ""))
    ∧ (∀ (fs : FileSys) (res : String → String) (path : String) (m : LocalModel),
        m ∈ InsertModel.fileBranch fs res path →
        m.thumbnailPath =
          (if fs.existsPath (cppParentPath (changeToUnixPath path) ++ "/thumbnails") then
            specFirstThumb fs InsertModel.thumbExtOk
              (fs.ls (cppParentPath (changeToUnixPath path) ++ "/thumbnails"))
          else ""))
    ∧ ResourceSpawner.thumbExtOk "svg" = true
    ∧ InsertModel.thumbExtOk "svg" = false := by
  refine ⟨firstThumb_eq_spec, ?_, ?_, by decide, by decide⟩
  · intro fs res parse path m h
    unfold ResourceSpawner.LoadLocalModel at h
    dsimp only at h
    split at h
    · exact absurd h (by simp)
    · injection h with h
      rw [← h]
      by_cases he : fs.existsPath (cppParentPath path ++ "/" ++ "thumbnails") = true
      · rw [if_pos he, if_pos he, firstThumb_eq_spec]
      · rw [if_neg he, if_neg he]
  · intro fs res path m hm
    unfold InsertModel.fileBranch at hm
    dsimp only at hm
    by_cases hc : cppSubstrFrom (changeToUnixPath path)
        (idxAfter (cppRfind '/' (changeToUnixPath path))) = "model.config"
    · rw [if_pos hc] at hm
      rw [List.mem_singleton] at hm
      rw [hm]
      rw [show cppSubstrTo (changeToUnixPath path) (cppRfind '/' (changeToUnixPath path))
        = cppParentPath (changeToUnixPath path) from rfl]
      by_cases he : fs.existsPath
          (cppParentPath (changeToUnixPath path) ++ "/thumbnails") = true
      · rw [if_pos he, if_pos he, firstThumb_eq_spec]
      · rw [if_neg he, if_neg he]
    · rw [if_neg hc] at hm
      simp at hm

/-- C4 witness: on a concrete model directory whose `thumbnails` folder holds
`a.txt` then `b.png`, the loaded record's thumbnail is the spec-side first
match `b.png`. -/
theorem claim_C4_witness :
    ResourceSpawner.LoadLocalModel fs4W resW parseNone "/m/model.config" = some m4W
    ∧ m4W.thumbnailPath =
      (if fs4W.existsPath (cppParentPath "/m/model.config" ++ "/" ++ "thumbnails") then
        specFirstThumb fs4W ResourceSpawner.thumbExtOk
          (fs4W.ls (cppParentPath "/m/model.config" ++ "/" ++ "thumbnails"))
      else "") :=
  ⟨by decide, claim_C4.2.1 fs4W resW parseNone "/m/model.config" m4W (by decide)⟩

/-- C6: a spawn request whose path cannot be opened reads an empty string and
still dispatches a preview event carrying that empty string; the handler
raises no error. -/
theorem claim_C6 (fs : FileSys) (path : String) (h : fs.files path = none) :
    ResourceSpawner.OnResourceSpawn fs path = ⟨""⟩ := by
  rw [ResourceSpawner.OnResourceSpawn, ResourceSpawner.readWholeFile, h]

/-- C6 witness: on the empty filesystem the dispatched event carries the
empty string. -/
theorem claim_C6_witness :
    emptyFS.files "/gone.sdf" = none
    ∧ ResourceSpawner.OnResourceSpawn emptyFS "/gone.sdf" =
        (⟨""⟩ : ResourceSpawner.SpawnPreviewModel) :=
  ⟨rfl, claim_C6 emptyFS "/gone.sdf" rfl⟩

/-- C7: a root path that is neither a file nor a directory yields zero
records from both scan variants, with no error raised (both functions return
normally). -/
theorem claim_C7 (fs : FileSys) (res : String → String)
    (parse : String → Option XmlDoc) (path : String) (fuel : Nat)
    (hf : fs.isFile path = false) (hd : fs.isDir path = false) :
    ResourceSpawner.FindLocalModels fs res parse path = []
    ∧ InsertModel.findFuel fs res (fuel + 1) path = some [] := by
  constructor
  · rw [ResourceSpawner.FindLocalModels, if_neg (by rw [hd]; simp)]
    unfold ResourceSpawner.LoadLocalModel
    dsimp only
    rw [if_pos (by rw [hf]; rfl)]
    rfl
  · rw [InsertModel.findFuel, if_neg (by rw [hd]; simp),
      if_neg (by rw [hf]; simp)]

/-- C7 witness: a nonexistent root on the empty filesystem. -/
theorem claim_C7_witness :
    emptyFS.isFile "/nope" = false ∧ emptyFS.isDir "/nope" = false
    ∧ ResourceSpawner.FindLocalModels emptyFS resW parseNone "/nope" = []
    ∧ InsertModel.findFuel emptyFS resW 1 "/nope" = some [] :=
  ⟨rfl, rfl,
    (claim_C7 emptyFS resW parseNone "/nope" 0 rfl rfl).1,
    (claim_C7 emptyFS resW parseNone "/nope" 0 rfl rfl).2⟩

/-- C9: in both variants' thumbnail search a file name with no dot is treated
as having the whole name as its extension (`rfind` returns `npos` and
`substr(npos + 1)` wraps to the start), so files named exactly `png`, `jpg`,
`jpeg` (or `svg` in the `ResourceSpawner` variant) are accepted as
thumbnails. -/
theorem claim_C9 :
    (∀ s : String, '.' ∉ s.data → extAfterDot s = s)
    ∧ InsertModel.thumbExtOk (extAfterDot "png") = true
    ∧ InsertModel.thumbExtOk (extAfterDot "jpg") = true
    ∧ InsertModel.thumbExtOk (extAfterDot "jpeg") = true
    ∧ ResourceSpawner.thumbExtOk (extAfterDot "png") = true
    ∧ ResourceSpawner.thumbExtOk (extAfterDot "jpg") = true
    ∧ ResourceSpawner.thumbExtOk (extAfterDot "jpeg") = true
    ∧ ResourceSpawner.thumbExtOk (extAfterDot "svg") = true
    ∧ firstThumb fs9W ResourceSpawner.thumbExtOk (fs9W.ls "/t") = "/t/png"
    ∧ firstThumb fs9W InsertModel.thumbExtOk (fs9W.ls "/t") = "/t/png" := by
  refine ⟨fun s h => extAfterDot_no_dot h, ?_⟩
  repeat first | constructor | decide

/-- C9 witness: the general no-dot rule applied to the name `png`. -/
theorem claim_C9_witness :
    ('.' ∉ ("png" : String).data) ∧ extAfterDot "png" = "png" :=
  ⟨by decide, claim_C9.1 "png" (by decide)⟩

/-- C10: when the lower-cased mode string is `box`, `InsertModel::OnMode`
indexes element 0 of the discovered-model list with no bounds check: the
access stays in bounds exactly when the list is nonempty, and on the empty
list it is out of bounds. -/
theorem claim_C10 (fs : FileSys) (models : List LocalModel) (mode : String)
    (h : InsertModel.asciiLower mode = "box") :
    (InsertModel.OnMode fs models mode ≠ InsertModel.OnModeResult.outOfBounds
      ↔ models ≠ [])
    ∧ InsertModel.OnMode fs [] mode = InsertModel.OnModeResult.outOfBounds := by
  constructor
  · rw [InsertModel.OnMode]
    rw [h, if_pos rfl]
    cases models with
    | nil => simp
    | cons x rest => simp
  · rw [InsertModel.OnMode]
    rw [h, if_pos rfl]
    rfl

/-- C10 witness: mode `Box` (lower-cased to `box`) with an empty model list
is an out-of-bounds access, and with a one-element list it is not. -/
theorem claim_C10_witness :
    InsertModel.asciiLower "Box" = "box"
    ∧ ((InsertModel.OnMode emptyFS [⟨"", "", "", ""⟩] "Box" ≠
        InsertModel.OnModeResult.outOfBounds ↔
        ([⟨"", "", "", ""⟩] : List LocalModel) ≠ [])
      ∧ InsertModel.OnMode emptyFS [] "Box" =
        InsertModel.OnModeResult.outOfBounds) :=
  ⟨by decide, claim_C10 emptyFS [⟨"", "", "", ""⟩] "Box" (by decide)⟩

/-- C1 counterexample: on a tree with exactly one `model.config` at depth 1
the `ResourceSpawner` variant returns one record, but its `configPath` is
empty rather than the descriptor's path — the source never assigns it. -/
theorem claim_C1_counterexample :
    (ResourceSpawner.FindLocalModels cexFS1 resW parseNone "/r").length = 1
    ∧ (ResourceSpawner.FindLocalModels cexFS1 resW parseNone "/r").map
        LocalModel.configPath = [""]
    ∧ ("" : String) ≠ "/r/model.config" := by
  decide

/-- C1 (amended): for every directory tree whose only `model.config` is a
file at depth 1 under the root, both variants return exactly one record; the
`InsertModel` variant's record carries `configPath` equal to that file's
path, while the `ResourceSpawner` variant leaves `configPath` empty (it never
sets the field). -/
theorem claim_C1 (res : String → String) (parse : String → Option XmlDoc)
    (root nm : String) (cs : FSForest) (content : String)
    (hroot : noBackslash root = true)
    (hwf : (FSTree.dir nm cs).wfb = true)
    (hmem : FSTree.file "model.config" content ∈ cs.toList)
    (hcount : cs.configCountF = 1) :
    (∀ fuel : Nat, cs.heightF + 2 ≤ fuel →
      InsertModel.findFuel (mount root (FSTree.dir nm cs)) res fuel root =
        some [InsertModel.record res root cs]
      ∧ (InsertModel.record res root cs).configPath =
          root ++ "/" ++ "model.config")
    ∧ (∃ m : LocalModel,
        ResourceSpawner.FindLocalModels (mount root (FSTree.dir nm cs)) res
          parse root = [m] ∧ m.configPath = "") := by
  constructor
  · intro fuel hfuel
    constructor
    · have h := findFuel_mount res root (FSTree.dir nm cs) hroot hwf fuel []
        nm cs (by simp) rfl hfuel
      rw [show pathAppend root [] = root from rfl] at h
      rw [h, dirResult_single hmem hcount]
    · rfl
  · obtain ⟨m, h1, h2, _⟩ :=
      RS_FindLocalModels_mount_single res parse root nm hwf hmem hcount
    exact ⟨m, h1, h2⟩

/-- C1 witness: the two-node tree `/r/model.config`. -/
theorem claim_C1_witness :
    (noBackslash "/r" = true)
    ∧ ((FSTree.dir "r" w1cs).wfb = true)
    ∧ (FSTree.file "model.config" "x" ∈ w1cs.toList)
    ∧ (w1cs.configCountF = 1)
    ∧ (w1cs.heightF + 2 ≤ 2)
    ∧ (InsertModel.findFuel (mount "/r" (FSTree.dir "r" w1cs)) resW 2 "/r" =
        some [InsertModel.record resW "/r" w1cs]
      ∧ (InsertModel.record resW "/r" w1cs).configPath =
          "/r" ++ "/" ++ "model.config")
    ∧ (∃ m : LocalModel,
        ResourceSpawner.FindLocalModels (mount "/r" (FSTree.dir "r" w1cs))
          resW parseNone "/r" = [m] ∧ m.configPath = "") :=
  ⟨by decide, by decide, by simp [w1cs, FSForest.toList], by decide, by decide,
    (claim_C1 resW parseNone "/r" "r" w1cs "x" (by decide) (by decide)
      (by simp [w1cs, FSForest.toList]) (by decide)).1 2 (by decide),
    (claim_C1 resW parseNone "/r" "r" w1cs "x" (by decide) (by decide)
      (by simp [w1cs, FSForest.toList]) (by decide)).2⟩

/-- C3: the recursive `InsertModel` scan terminates on every finite acyclic
directory structure (every well-formed mounted tree admits enough fuel), and
does not terminate on a self-referential directory structure: on the
infinite unfolding of a directory cycle it exhausts any amount of fuel. -/
theorem claim_C3 :
    (∀ (res : String → String) (root : String) (t : FSTree),
      noBackslash root = true → t.wfb = true →
      ∃ (fuel : Nat) (l : List LocalModel),
        InsertModel.findFuel (mount root t) res fuel root = some l)
    ∧ (∀ (res : String → String) (fuel : Nat) (p : String),
        InsertModel.findFuel cyclicFS res fuel p = none) := by
  constructor
  · intro res root t hroot hwf
    cases t with
    | file n c =>
      refine ⟨1, InsertModel.fileBranch (mount root (FSTree.file n c)) res root, ?_⟩
      have hd : (mount root (FSTree.file n c)).isDir root = false := by
        rw [FileSys.isDir]
        rw [show (mount root (FSTree.file n c)).dirs root = none by
          show (match (FSTree.file n c).find root root with
            | some (.dir _ cs) => some cs.namesF
            | _ => none) = none
          rw [FSTree.find.eq_def, if_pos rfl]]
        rfl
      have hf : (mount root (FSTree.file n c)).isFile root = true := by
        rw [FileSys.isFile]
        rw [show (mount root (FSTree.file n c)).files root = some c by
          show (match (FSTree.file n c).find root root with
            | some (.file _ content) => some content
            | _ => none) = some c
          rw [FSTree.find.eq_def, if_pos rfl]]
        rfl
      rw [InsertModel.findFuel, if_neg (by rw [hd]; simp), if_pos hf]
    | dir nm cs =>
      refine ⟨cs.heightF + 2, InsertModel.dirResult res root cs, ?_⟩
      have h := findFuel_mount res root (FSTree.dir nm cs) hroot hwf
        (cs.heightF + 2) [] nm cs (by simp) rfl le_rfl
      rw [show pathAppend root [] = root from rfl] at h
      exact h
  · intro res fuel
    induction fuel with
    | zero => intro p; rfl
    | succ k ih =>
      intro p
      rw [InsertModel.findFuel]
      rw [show cyclicFS.isDir p = true from rfl, if_pos rfl]
      rw [show cyclicFS.ls p = [p ++ "/" ++ "d"] from rfl]
      rw [List.foldl_cons, Option.some_bind, ih (p ++ "/" ++ "d")]
      rfl

/-- C3 witness: the mounted tree `/r/model.config` terminates with some
fuel. -/
theorem claim_C3_witness :
    (noBackslash "/r" = true) ∧ ((FSTree.dir "r" w1cs).wfb = true)
    ∧ (∃ (fuel : Nat) (l : List LocalModel),
        InsertModel.findFuel (mount "/r" (FSTree.dir "r" w1cs)) resW fuel "/r" =
          some l) :=
  ⟨by decide, by decide,
    claim_C3.1 resW "/r" (FSTree.dir "r" w1cs) (by decide) (by decide)⟩

/-- C2 counterexample: with two configured roots, `ResourceSpawner` registers
both paths but its grid holds no record from the second root even though that
root contains a model — the result is not the union over every root. -/
theorem claim_C2_counterexample :
    (ResourceSpawner.LoadConfig cexFS2 resW parseNone true ["/r1", "/r2"]).2 = []
    ∧ ResourceSpawner.FindLocalModels cexFS2 resW parseNone "/r2" ≠ [] := by
  decide

/-- C2 (amended): the `InsertModel` vector variant scans every configured
root and returns the concatenation of the per-root results; the
`ResourceSpawner` variant adds every configured path to its path list but
scans only the first path. -/
theorem claim_C2 :
    (∀ (fs : FileSys) (res : String → String) (fuel : Nat)
        (paths : List String),
      (∀ p ∈ paths, (InsertModel.findFuel fs res fuel p).isSome = true) →
      InsertModel.findVec fs res fuel paths =
        some (paths.flatMap (fun p =>
          (InsertModel.findFuel fs res fuel p).getD [])))
    ∧ (∀ (fs : FileSys) (res : String → String)
        (parse : String → Option XmlDoc) (p : String) (rest : List String),
        ResourceSpawner.LoadConfig fs res parse true (p :: rest) =
          (p :: rest, ResourceSpawner.FindLocalModels fs res parse p)) := by
  constructor
  · intro fs res fuel paths h
    have hsome : ∀ x ∈ paths, InsertModel.findFuel fs res fuel x =
        some ((InsertModel.findFuel fs res fuel x).getD []) := by
      intro x hx
      have hs := h x hx
      cases hv : InsertModel.findFuel fs res fuel x with
      | none => rw [hv] at hs; exact absurd hs (by simp)
      | some v => rfl
    have hfold := foldScan_some (fun cur => InsertModel.findFuel fs res fuel cur)
      (fun p => p) (fun p => (InsertModel.findFuel fs res fuel p).getD [])
      paths [] hsome
    rw [show List.map (fun p : String => p) paths = paths by simp] at hfold
    rw [InsertModel.findVec, hfold, List.nil_append]
  · intro fs res parse p rest
    rw [ResourceSpawner.LoadConfig]
    rw [if_neg (by simp)]
    rw [List.headI]

/-- C2 witness: a singleton path list on the empty filesystem scans that one
root and yields the (empty) concatenation. -/
theorem claim_C2_witness :
    (∀ p ∈ ["/a"], (InsertModel.findFuel emptyFS resW 1 p).isSome = true)
    ∧ InsertModel.findVec emptyFS resW 1 ["/a"] =
        some (["/a"].flatMap (fun p =>
          (InsertModel.findFuel emptyFS resW 1 p).getD [])) :=
  ⟨by decide, claim_C2.1 emptyFS resW 1 ["/a"] (by decide)⟩

/-- C5 counterexample: a discovered `model.config` whose contents fail to
parse yields a record with an empty name — but its `configPath` is also
empty in the `ResourceSpawner` variant, contradicting the claimed non-empty
`configPath`. -/
theorem claim_C5_counterexample :
    (ResourceSpawner.LoadLocalModel fs5W resW parseNone "/m/model.config").map
      LocalModel.configPath = some ""
    ∧ (ResourceSpawner.LoadLocalModel fs5W resW parseNone "/m/model.config").map
      LocalModel.name = some "" := by
  decide

/-- C5 (amended): a discovered `model.config` whose contents cannot be
parsed, or whose parsed document has no `name` child under a root `model`
element, still produces a record (never rejected) with an empty name; its
`sdfPath` is the resolver's output (non-empty whenever the resolver
succeeds); `configPath` is the descriptor's (non-empty) path in the
`InsertModel` variant but is left empty in the `ResourceSpawner` variant. -/
theorem claim_C5 :
    (∀ (fs : FileSys) (res : String → String) (parse : String → Option XmlDoc)
        (path : String),
      fs.isFile path = true → cppBasename path = "model.config" →
      (∀ doc : XmlDoc,
        (fs.files (cppParentPath path ++ "/" ++ "model.config")).bind parse =
          some doc →
        xmlFirstChild "model" doc = none ∨
        ∃ mx, xmlFirstChild "model" doc = some mx ∧
          xmlFirstChild "name" mx.children = none) →
      ∃ m : LocalModel,
        ResourceSpawner.LoadLocalModel fs res parse path = some m
        ∧ m.name = "" ∧ m.configPath = ""
        ∧ m.sdfPath = res (cppParentPath path)
        ∧ (res (cppParentPath path) ≠ "" → m.sdfPath ≠ ""))
    ∧ (∀ (fs : FileSys) (res : String → String) (path : String) (fuel : Nat),
        fs.isFile path = true → fs.isDir path = false →
        cppBasename (changeToUnixPath path) = "model.config" →
        ∃ m : LocalModel,
          InsertModel.findFuel fs res (fuel + 1) path = some [m]
          ∧ m.name = "" ∧ m.configPath = changeToUnixPath path
          ∧ m.configPath ≠ "") := by
  constructor
  · intro fs res parse path hf hb hname
    unfold ResourceSpawner.LoadLocalModel
    dsimp only
    rw [if_neg (by rw [hf, hb]; simp)]
    refine ⟨_, rfl, ?_, rfl, rfl, fun hne => hne⟩
    show extractName ((fs.files (cppParentPath path ++ "/" ++ "model.config")).bind
      parse) = ""
    cases hdoc : (fs.files (cppParentPath path ++ "/" ++ "model.config")).bind parse with
    | none => rfl
    | some doc =>
      rw [extractName]
      rcases hname doc hdoc with hno | ⟨mx, hmx, hnn⟩
      · rw [hno]
      · rw [hmx]
        show (match xmlFirstChild "name" mx.children with
          | none => ""
          | some modelName => modelName.text) = ""
        rw [hnn]
  · intro fs res path fuel hf hd hb
    rw [InsertModel.findFuel, if_neg (by rw [hd]; simp), if_pos hf]
    unfold InsertModel.fileBranch
    dsimp only
    rw [show cppSubstrFrom (changeToUnixPath path)
        (idxAfter (cppRfind '/' (changeToUnixPath path))) =
        cppBasename (changeToUnixPath path) from rfl]
    rw [hb, if_pos rfl]
    refine ⟨_, rfl, rfl, rfl, ?_⟩
    intro he
    have he2 : changeToUnixPath path = "" := he
    rw [he2] at hb
    exact absurd hb (by decide)

/-- C5 witness: the unparsable descriptor `/m/model.config`. -/
theorem claim_C5_witness :
    (fs5W.isFile "/m/model.config" = true)
    ∧ (cppBasename "/m/model.config" = "model.config")
    ∧ (∃ m : LocalModel,
        ResourceSpawner.LoadLocalModel fs5W resW parseNone "/m/model.config" =
          some m
        ∧ m.name = "" ∧ m.configPath = ""
        ∧ m.sdfPath = resW (cppParentPath "/m/model.config")
        ∧ (resW (cppParentPath "/m/model.config") ≠ "" → m.sdfPath ≠ ""))
    ∧ (∃ m : LocalModel,
        InsertModel.findFuel fs5W resW 1 "/m/model.config" = some [m]
        ∧ m.name = "" ∧ m.configPath = changeToUnixPath "/m/model.config"
        ∧ m.configPath ≠ "") :=
  ⟨by decide, by decide,
    claim_C5.1 fs5W resW parseNone "/m/model.config" (by decide) (by decide)
      (by
        intro doc hdoc
        rw [show (fs5W.files (cppParentPath "/m/model.config" ++ "/" ++
            "model.config")).bind parseNone = none by
          cases fs5W.files (cppParentPath "/m/model.config" ++ "/" ++
            "model.config") <;> rfl] at hdoc
        exact absurd hdoc (by simp)),
    claim_C5.2 fs5W resW "/m/model.config" 0 (by decide) (by decide)
      (by decide)⟩

/-- C8: every record the `InsertModel` scan produces has an empty name — the
variant never parses `model.config` for a name element. -/
theorem claim_C8 :
    ∀ (fs : FileSys) (res : String → String) (fuel : Nat) (path : String)
      (l : List LocalModel),
      InsertModel.findFuel fs res fuel path = some l →
      ∀ m ∈ l, m.name = "" := by
  intro fs res fuel
  induction fuel with
  | zero =>
    intro path l h
    exact absurd h (by simp [InsertModel.findFuel])
  | succ k ih =>
    intro path l h m hm
    rw [InsertModel.findFuel] at h
    by_cases hd : fs.isDir path = true
    · rw [if_pos hd] at h
      rcases foldScan_mem (fs.ls path) [] l h m hm with hacc | ⟨p, _, r, hg, hmr⟩
      · exact absurd hacc (by simp)
      · exact ih p r hg m hmr
    · rw [if_neg hd] at h
      by_cases hf : fs.isFile path = true
      · rw [if_pos hf] at h
        injection h with h
        refine @fileBranch_name fs res path m ?_
        rw [h]
        exact hm
      · rw [if_neg hf] at h
        injection h with h
        rw [← h] at hm
        exact absurd hm (by simp)

/-- C8 witness: the record found under `/r2` carries an empty name. -/
theorem claim_C8_witness :
    InsertModel.findFuel cexFS2 resW 3 "/r2" =
      some [⟨"", "/r2/m/model.config", "/r2/m/model.sdf", ""⟩]
    ∧ (∀ m ∈ [(⟨"", "/r2/m/model.config", "/r2/m/model.sdf", ""⟩ : LocalModel)],
        m.name = "") :=
  ⟨by decide, claim_C8 cexFS2 resW 3 "/r2" _ (by decide)⟩
